import Mathlib

/-!
Verification development for the node-clingo subsystem of the Cyberismo
repository (src/tools/node-clingo): a fragment (program) store with category
tags, a query assembler producing a 64-bit fingerprint, an LRU result cache
with time-based expiry, and the solver glue code.

The C++ sources are shallowly embedded as executable Lean definitions:

* `std::unordered_map` becomes an association list (`alookup`, `aset`,
  `aerase`) with first-match semantics; map keys are unique in all states the
  code can construct, so the iteration order that `unordered_map` leaves
  unspecified is never observable through the operations modelled here.
* `std::shared_ptr`/`std::weak_ptr` object identity is modelled by an
  allocation counter: every `Program` carries a `pid` assigned at creation
  time.  A weak reference held by the category index is modelled by storing
  the `pid`; locking succeeds exactly when the owning `programs` map still
  holds the program with that `pid` (the store is the only strong owner in
  the sequential, store-level model used here).
* `XXH3_64bits` content hashing is an external library call; it is modelled
  by an arbitrary function `xxh3 : String → Hash` passed as a parameter.
  The streaming fingerprint (`XXH3` update/digest over the query bytes
  followed by the 8-byte content hash of each resolved fragment) is modelled
  by the input stream itself, a pair of the query text and the list of mixed
  hashes: equal streams give equal digests for every digest function, and,
  because every mixed hash occupies exactly 8 bytes, distinct streams with
  the same query text give distinct byte inputs (distinct digests up to the
  XXH3 collisions the design explicitly accepts).
* machine integers (`size_t`, `int64_t`, the `int` key counter) are modelled
  by `Nat`/`Int`; none of the modelled quantities can overflow in the
  scenarios the claims quantify over.
-/

namespace NodeClingo

/-! ### Association-list primitives (model of std::unordered_map / std::map) -/

/-- First-match lookup, the model of `map.find(k)`. -/
def alookup {α β : Type} [DecidableEq α] : List (α × β) → α → Option β
  | [], _ => none
  | (k, v) :: rest, a => if k = a then some v else alookup rest a

/-- Model of `map[k] = v`: replace the first binding of `k`, else append. -/
def aset {α β : Type} [DecidableEq α] : List (α × β) → α → β → List (α × β)
  | [], a, b => [(a, b)]
  | (k, v) :: rest, a, b => if k = a then (a, b) :: rest else (k, v) :: aset rest a b

/-- Model of `map.erase(k)`: drop the first binding of `k`. -/
def aerase {α β : Type} [DecidableEq α] : List (α × β) → α → List (α × β)
  | [], _ => []
  | (k, v) :: rest, a => if k = a then rest else (k, v) :: aerase rest a

/-! ### Data model of the program store (program_store.h / program_store.cc) -/

/-- Model of `XXH64_hash_t` (`using Hash = XXH64_hash_t`). -/
abbrev Hash := Nat

/-- Model of `using KeyHash = int`: the interned key identifier. -/
abbrev KeyHash := Nat

/-- Model of `struct Program`.  `pid` is the allocation identity of the
`std::make_shared` object (used for the identity-based de-duplication and for
weak-reference liveness); it is not a C++ data member.  `categories` is the
`std::vector<KeyHash> categories_` member: the C++ constructor receives
`categories_hashed`, which `addProgram` builds with `std::transform` writing
through `begin()` of a vector that was only `reserve`d, so its size stays 0
and the stored member is empty.  `regCategories` is specification-only ghost
data recording the hashed category list the registration was called with; no
executable operation reads it. -/
structure Program where
  pid : Nat
  key : String
  content : String
  categories : List KeyHash
  regCategories : List KeyHash
  hash : Hash
  deriving DecidableEq, Repr

/-- The fingerprint is modelled by the XXH3 input stream: the raw query text
followed by the sequence of 8-byte content hashes mixed into the state. -/
abbrev Fingerprint := String × List Hash

/-- Model of `struct Query`. -/
structure Query where
  programs : List Program
  hash : Fingerprint
  deriving DecidableEq, Repr

/-- Model of `class ProgramStore`.  `programsByCategory` stores the category
index; its vectors hold weak references, modelled by the `pid` of the
referenced program.  `nextKey` is the `std::atomic<int> next_key` counter and
`nextPid` the allocation counter modelling shared-pointer identity. -/
structure ProgramStore where
  programs : List (KeyHash × Program)
  programsByCategory : List (KeyHash × List Nat)
  keyToHash : List (String × KeyHash)
  nextKey : Nat
  nextPid : Nat
  deriving DecidableEq, Repr

def ProgramStore.emptyStore : ProgramStore :=
  { programs := [], programsByCategory := [], keyToHash := [], nextKey := 0, nextPid := 0 }

/-- Model of `ProgramStore::getOrCreateHash`: return the interned id of `key`,
interning it at the current counter value (and bumping the counter) when new. -/
def ProgramStore.getOrCreateHash (s : ProgramStore) (key : String) : KeyHash × ProgramStore :=
  match alookup s.keyToHash key with
  | some h => (h, s)
  | none =>
      (s.nextKey,
        { s with keyToHash := aset s.keyToHash key s.nextKey, nextKey := s.nextKey + 1 })

/-- Interning pass over the category strings: the model of the `std::transform`
over `categories` (each element is passed through `getOrCreateHash`, so the
interning side effects happen; the transformed values are also what the later
`programs_by_category[getOrCreateHash(category)]` loop reads back). -/
def internAll (s : ProgramStore) (cats : List String) : List KeyHash × ProgramStore :=
  cats.foldl
    (fun acc c =>
      let r := acc.2.getOrCreateHash c
      (acc.1 ++ [r.1], r.2))
    ([], s)

/-- Model of `programs_by_category[c].push_back(shared_program)`:
`operator[]` default-constructs an empty vector when absent. -/
def pushCat (m : List (KeyHash × List Nat)) (c : KeyHash) (pid : Nat) :
    List (KeyHash × List Nat) :=
  match alookup m c with
  | some v => aset m c (v ++ [pid])
  | none => aset m c [pid]

/-- Model of `ProgramStore::addProgram` (parameterised by the external content
hash `xxh3`): hash the content, intern the key, erase any program stored under
that id, intern the categories, allocate the new program (with the empty
`categories` member the `std::transform` slip produces), store it, refresh
`key_to_hash`, and push a weak reference into each category's vector. -/
def ProgramStore.addProgram (xxh3 : String → Hash) (s : ProgramStore)
    (key content : String) (categories : List String) : ProgramStore :=
  let contentHash := xxh3 content
  let r1 := s.getOrCreateHash key
  let h := r1.1
  let s2 := { r1.2 with programs := aerase r1.2.programs h }
  let r2 := internAll s2 categories
  let categoriesHashed := r2.1
  let s3 := r2.2
  let p : Program :=
    { pid := s3.nextPid, key := key, content := content, categories := [],
      regCategories := categoriesHashed, hash := contentHash }
  { s3 with
      programs := aset s3.programs h p,
      keyToHash := aset s3.keyToHash key h,
      nextPid := s3.nextPid + 1,
      programsByCategory :=
        categoriesHashed.foldl (fun m c => pushCat m c p.pid) s3.programsByCategory }

/-- Model of `ProgramStore::removeProgramByKey`.  The C++ looks the key up
with `key_to_hash[key]`: `operator[]` value-initialises an absent entry, so an
unknown key is silently interned with id `0` (without touching `next_key`).
The category-detach loop iterates the removed program's empty `categories`
member, and it works on a by-value copy of each category vector
(`auto program_vector = programs_by_category[category]`), so the category
index is never modified here; a removed program's weak references simply stop
locking once the map entry (the sole strong owner) is erased. -/
def ProgramStore.removeProgramByKey (s : ProgramStore) (key : String) :
    Bool × ProgramStore :=
  let r : KeyHash × ProgramStore :=
    match alookup s.keyToHash key with
    | some h => (h, s)
    | none => (0, { s with keyToHash := aset s.keyToHash key 0 })
  let h := r.1
  let s1 := r.2
  match alookup s1.programs h with
  | some _ => (true, { s1 with programs := aerase s1.programs h })
  | none => (false, s1)

/-- Model of `ProgramStore::removeAllPrograms` (clears the two program maps
but not `key_to_hash` or the counter). -/
def ProgramStore.removeAllPrograms (s : ProgramStore) : ProgramStore :=
  { s with programs := [], programsByCategory := [] }

/-- Model of `weak_ptr::lock()` on a category-index entry: the store's
`programs` map is the sole strong owner, so the lock succeeds exactly when a
program with this allocation identity is still stored. -/
def lockPid (s : ProgramStore) (pid : Nat) : Option Program :=
  (s.programs.map Prod.snd).find? (fun p => p.pid == pid)

/-- Intermediate state of the reference-resolution loop of
`ProgramStore::programByReferences`: the (mutated) store, the collected
result list, and the `seen` identity set. -/
structure RState where
  s : ProgramStore
  acc : List Program
  seen : List Nat
  deriving Repr

/-- One iteration of the reference loop: intern the reference, try a direct
program match (identity-deduplicated), otherwise walk the category vector,
locking each weak reference and identity-deduplicating. -/
def refStep (st : RState) (reference : String) : RState :=
  let r := st.s.getOrCreateHash reference
  let h := r.1
  let s1 := r.2
  match alookup s1.programs h with
  | some p =>
      if p.pid ∈ st.seen then ⟨s1, st.acc, st.seen⟩
      else ⟨s1, st.acc ++ [p], st.seen ++ [p.pid]⟩
  | none =>
      match alookup s1.programsByCategory h with
      | some pids =>
          let z := pids.foldl
            (fun (as : List Program × List Nat) pid =>
              match lockPid s1 pid with
              | some p =>
                  if p.pid ∈ as.2 then as else (as.1 ++ [p], as.2 ++ [p.pid])
              | none => as)
            (st.acc, st.seen)
          ⟨s1, z.1, z.2⟩
      | none => ⟨s1, st.acc, st.seen⟩

/-- Insertion of a program into a list kept sorted by content hash; together
with `sortByHash` this models the final
`std::sort(result, ... a->hash < b->hash)` (the relative order of equal
hashes is unspecified in C++; this implementation fixes one such order, and
no modelled observation distinguishes orders of equal hashes). -/
def insertByHash (p : Program) : List Program → List Program
  | [] => [p]
  | q :: rest => if p.hash ≤ q.hash then p :: q :: rest else q :: insertByHash p rest

def sortByHash : List Program → List Program
  | [] => []
  | p :: rest => insertByHash p (sortByHash rest)

/-- Model of `ProgramStore::programByReferences`: fold the reference loop,
then sort the de-duplicated result by content hash.  Resolution mutates the
store (unknown references are interned), so the updated store is returned. -/
def ProgramStore.programByReferences (s : ProgramStore) (references : List String) :
    List Program × ProgramStore :=
  let st := references.foldl refStep ⟨s, [], []⟩
  (sortByHash st.acc, st.s)

/-- Model of `ProgramStore::prepareQuery`: resolve the references, append the
synthetic `__program__` fragment (content hash 0, never stored), and build
the fingerprint stream: the query bytes followed by every non-zero content
hash of the part list in order. -/
def ProgramStore.prepareQuery (s : ProgramStore) (query : String)
    (categories : List String) : Query × ProgramStore :=
  let r := s.programByReferences categories
  let withMain := r.1 ++
    [{ pid := 0, key := "__program__", content := query, categories := [],
       regCategories := [], hash := 0 }]
  let hashes := withMain.foldl (fun hs p => if p.hash ≠ 0 then hs ++ [p.hash] else hs) []
  ({ programs := withMain, hash := (query, hashes) }, r.2)

/-! ### Data model of the result cache (solve_result_cache.h / .cc) -/

/-- Model of `struct ClingoLogMessage`. -/
structure ClingoLogMessage where
  code : Nat
  isError : Bool
  message : String
  deriving DecidableEq, Repr

/-- Model of `struct Stats` (microsecond counts). -/
structure Stats where
  glue : Int
  add : Int
  ground : Int
  solve : Int
  deriving DecidableEq, Repr

/-- Model of `struct SolveResult`, including the `valid_until` epoch-ms
timestamp field read by `SolveResultCache::result` and written by
`ClingoSolver::solve` (0 = never expires). -/
structure SolveResult where
  isError : Bool := false
  answers : List String
  logs : List ClingoLogMessage
  stats : Stats
  key : String
  valid_until : Int := 0
  deriving DecidableEq, Repr

def CACHE_CAPACITY_BYTES : Nat := 16 * 1024 * 1024

/-- Model of `SolveResultCache::Entry` (the `lruIt` iterator member is
represented by the entry's key occurring in the recency list). -/
structure Entry where
  result : SolveResult
  sizeBytes : Nat
  deriving DecidableEq, Repr

/-- Model of `class SolveResultCache`: the entry map, the recency list
(front = most recently used, back = least recently used) and the byte
counter. -/
structure SolveResultCache where
  entries : List (Hash × Entry)
  lru : List Hash
  currentBytes : Nat
  deriving DecidableEq, Repr

def SolveResultCache.emptyCache : SolveResultCache :=
  { entries := [], lru := [], currentBytes := 0 }

/-- One iteration of the eviction loop body of `SolveResultCache::addResult`:
pop the least-recently-used hash off the back of the recency list and erase
its entry (guarded, as in the source, by the entry existing). -/
def evictOnce (c : SolveResultCache) : SolveResultCache :=
  match c.lru.getLast? with
  | none => c
  | some evictHash =>
      let lru' := c.lru.dropLast
      match alookup c.entries evictHash with
      | some e =>
          { entries := aerase c.entries evictHash, lru := lru',
            currentBytes := c.currentBytes - e.sizeBytes }
      | none => { c with lru := lru' }

/-- The eviction `while` loop, written with explicit fuel (each iteration
shortens the recency list by one, so `c.lru.length` iterations always reach
the loop's exit condition; `evictLoop` below supplies exactly that fuel). -/
def evictLoopFuel (bytes : Nat) : Nat → SolveResultCache → SolveResultCache
  | 0, c => c
  | n + 1, c =>
      if CACHE_CAPACITY_BYTES < c.currentBytes + bytes ∧ c.lru ≠ [] then
        evictLoopFuel bytes n (evictOnce c)
      else c

/-- Model of `while (currentBytes + bytes > CACHE_CAPACITY_BYTES && !lru.empty())`. -/
def evictLoop (bytes : Nat) (c : SolveResultCache) : SolveResultCache :=
  evictLoopFuel bytes c.lru.length c

/-- Model of `SolveResultCache::addResult`, parameterised by the size
estimate `est` (the C++ `estimateSizeBytes` reads `capacity()` of strings and
vectors plus `sizeof` constants, quantities the abstract values do not
determine; every theorem below therefore holds for an arbitrary estimate).
An existing entry under the same hash is removed first, an estimate larger
than the capacity drops the insert, otherwise least-recently-used entries are
evicted until the new entry fits, and the entry is inserted most recently
used. -/
def SolveResultCache.addResult (est : SolveResult → Nat) (c : SolveResultCache)
    (h : Hash) (result : SolveResult) : SolveResultCache :=
  let c1 :=
    match alookup c.entries h with
    | some e =>
        { entries := aerase c.entries h, lru := c.lru.erase h,
          currentBytes := c.currentBytes - e.sizeBytes }
    | none => c
  let bytes := est result
  if CACHE_CAPACITY_BYTES < bytes then c1
  else
    let c2 := evictLoop bytes c1
    { entries := aset c2.entries h { result := result, sizeBytes := bytes },
      lru := h :: c2.lru,
      currentBytes := c2.currentBytes + bytes }

/-- Model of `SolveResultCache::result` (lookup): on a hit whose
`valid_until` is positive and strictly in the past (`current_epoch_ms() >
valid_until`, with the clock passed in as `now`), the entry is evicted and a
miss reported; otherwise the entry is promoted to the front of the recency
list and a copy of the stored result is returned. -/
def SolveResultCache.result (now : Int) (c : SolveResultCache) (h : Hash) :
    Option SolveResult × SolveResultCache :=
  match alookup c.entries h with
  | some e =>
      if 0 < e.result.valid_until ∧ e.result.valid_until < now then
        (none,
          { entries := aerase c.entries h, lru := c.lru.erase h,
            currentBytes := c.currentBytes - e.sizeBytes })
      else
        (some e.result, { c with lru := h :: c.lru.erase h })
  | none => (none, c)

/-! ### Solver TTL model (clingo_solver.cc, function_handlers.cc) -/

/-- The registered external-function handler names
(`get_function_handlers`). -/
def functionHandlerNames : List String :=
  ["concatenate", "daysSince", "today", "wrap",
   "resourcePrefix", "resourceType", "resourceIdentifier"]

/-- The handlers that read the wall clock, per the handler sources:
`handle_today` formats the current local date and `handle_days_since`
subtracts the parsed argument date from `system_clock::now()`. -/
def dateDependentNames : List String := ["today", "daysSince"]

/-- Model of the `todayCalled` flag after grounding invoked the given
external-function names in order: `ClingoSolver::ground_callback` sets the
flag exactly when the looked-up handler's name is `today`. -/
def groundTodayCalled (calls : List String) : Bool :=
  calls.foldl
    (fun td name =>
      if name ∈ functionHandlerNames then
        if name = "today" then true else td
      else td)
    false

/-- Model of the `valid_until` computation of `ClingoSolver::solve` on the
successful path: `todayCalled ? next_local_midnight_epoch_ms() : 0`. -/
def solveValidUntil (calls : List String) (nextLocalMidnight : Int) : Int :=
  if groundTodayCalled calls then nextLocalMidnight else 0

/-! ### Answer-set collection model (ClingoSolver::on_model) -/

/-- Model of the answer-string construction in `on_model` for a non-empty
model: each shown atom's rendering is appended, empty renderings are skipped,
and a newline separator is written before every atom whose index is
positive. -/
def buildAnswer (atoms : List String) : String :=
  (atoms.enum.foldl
    (fun acc ia =>
      if ia.2 = "" then acc
      else (if 0 < ia.1 then acc ++ "\n" else acc) ++ ia.2)
    "")

/-- Model of `ClingoSolver::on_model` on the non-failing path: a model with
zero shown atoms appends the empty string and asks to continue; a non-empty
model appends its rendered answer and asks to continue.  The returned flag is
`go_on`. -/
def onModel (answers : List String) (shownAtoms : List String) :
    List String × Bool :=
  if shownAtoms = [] then (answers ++ [""], true)
  else (answers ++ [buildAnswer shownAtoms], true)

/-- The enumeration driven by `clingo_solve_mode_yield`: models are delivered
one at a time and enumeration continues while `go_on` is set. -/
def enumerateModels (answers : List String) : List (List String) → List String
  | [] => answers
  | m :: ms =>
      let r := onModel answers m
      if r.2 then enumerateModels r.1 ms else r.1

/-! ### Binding-layer registration model (binding.cc, SetProgram) -/

/-- Minimal model of an N-API argument value. -/
inductive NapiValue
  | nstring (s : String)
  | narray (elems : List NapiValue)
  | nother

/-- Model of the binding-layer `struct Program` (content, category strings,
content hash). -/
structure BindingProgram where
  content : String
  categories : List String
  hash : Hash
  deriving DecidableEq, Repr

/-- Model of the N-API `SetProgram` entry point: it throws a `TypeError`
exactly when fewer than two arguments are given or either of the first two is
not a string; otherwise it hashes the content, collects the string elements
of an optional third array argument as categories, and stores the program
under the key (`g_programs[key] = program`). -/
def SetProgram (xxh3 : String → Hash) (gPrograms : List (String × BindingProgram))
    (info : List NapiValue) : Except String (List (String × BindingProgram)) :=
  match info with
  | NapiValue.nstring key :: NapiValue.nstring content :: rest =>
      let categories :=
        match rest with
        | NapiValue.narray elems :: _ =>
            elems.foldl
              (fun cs v =>
                match v with
                | NapiValue.nstring s => cs ++ [s]
                | _ => cs)
              []
        | _ => []
      Except.ok
        (aset gPrograms key
          { content := content, categories := categories, hash := xxh3 content })
  | _ => Except.error "TypeError"

/-! ### Concrete instantiation devices for closed scenarios

The theorems below are parameterised over the external content-hash and
size-estimate functions; the following concrete stand-ins are used only to
evaluate closed counterexamples and witnesses. -/

/-- A concrete content-hash function for closed scenarios. -/
def sampleHash : String → Hash := fun s => s.length + 100

/-- A minimal solve result distinguished by its `key` field. -/
def sampleResult (k : String) : SolveResult :=
  { answers := [], logs := [], stats := ⟨0, 0, 0, 0⟩, key := k }

/-- A size estimate that makes exactly two entries fit in the 16 MiB budget
(7 MiB each). -/
def estSeven : SolveResult → Nat := fun _ => 7 * 1024 * 1024

/-- A size estimate under which only the result keyed `"big"` exceeds the
capacity. -/
def estBig : SolveResult → Nat :=
  fun r => if r.key = "big" then CACHE_CAPACITY_BYTES + 1 else 10

/-! ### Association-list lemmas -/

@[simp] theorem alookup_nil {α β : Type} [DecidableEq α] (a : α) :
    alookup ([] : List (α × β)) a = none := rfl

@[simp] theorem alookup_cons {α β : Type} [DecidableEq α] (ek : α) (ev : β)
    (rest : List (α × β)) (a : α) :
    alookup ((ek, ev) :: rest) a = if ek = a then some ev else alookup rest a := rfl

@[simp] theorem aset_nil {α β : Type} [DecidableEq α] (a : α) (b : β) :
    aset ([] : List (α × β)) a b = [(a, b)] := rfl

@[simp] theorem aset_cons {α β : Type} [DecidableEq α] (ek : α) (ev : β)
    (rest : List (α × β)) (a : α) (b : β) :
    aset ((ek, ev) :: rest) a b =
      if ek = a then (a, b) :: rest else (ek, ev) :: aset rest a b := rfl

@[simp] theorem aerase_nil {α β : Type} [DecidableEq α] (a : α) :
    aerase ([] : List (α × β)) a = [] := rfl

@[simp] theorem aerase_cons {α β : Type} [DecidableEq α] (ek : α) (ev : β)
    (rest : List (α × β)) (a : α) :
    aerase ((ek, ev) :: rest) a =
      if ek = a then rest else (ek, ev) :: aerase rest a := rfl

theorem alookup_aset_self {α β : Type} [DecidableEq α] (l : List (α × β)) (k : α) (v : β) :
    alookup (aset l k v) k = some v := by
  induction l with
  | nil => simp
  | cons e rest ih =>
      obtain ⟨ek, ev⟩ := e
      by_cases h : ek = k <;> simp [h, ih]

theorem alookup_aset_of_ne {α β : Type} [DecidableEq α] (l : List (α × β)) (k a : α) (v : β)
    (hne : a ≠ k) : alookup (aset l k v) a = alookup l a := by
  induction l with
  | nil => simp [Ne.symm hne]
  | cons e rest ih =>
      obtain ⟨ek, ev⟩ := e
      by_cases h : ek = k
      · subst h
        simp [Ne.symm hne]
      · by_cases h2 : ek = a
        · subst h2
          simp [h]
        · simp [h, h2, ih]

theorem alookup_aerase_of_ne {α β : Type} [DecidableEq α] (l : List (α × β)) (k a : α)
    (hne : a ≠ k) : alookup (aerase l k) a = alookup l a := by
  induction l with
  | nil => simp
  | cons e rest ih =>
      obtain ⟨ek, ev⟩ := e
      by_cases h : ek = k
      · subst h
        simp [Ne.symm hne]
      · by_cases h2 : ek = a
        · subst h2
          simp [h]
        · simp [h, h2, ih]

theorem alookup_mem {α β : Type} [DecidableEq α] {l : List (α × β)} {k : α} {v : β}
    (h : alookup l k = some v) : (k, v) ∈ l := by
  induction l with
  | nil => simp at h
  | cons e rest ih =>
      obtain ⟨ek, ev⟩ := e
      by_cases he : ek = k
      · subst he
        rw [alookup_cons, if_pos rfl] at h
        injection h with h2
        subst h2
        exact List.mem_cons_self _ _
      · simp only [alookup_cons, if_neg he] at h
        exact List.mem_cons_of_mem _ (ih h)

theorem alookup_eq_none {α β : Type} [DecidableEq α] {l : List (α × β)} {k : α} :
    alookup l k = none ↔ k ∉ l.map Prod.fst := by
  induction l with
  | nil => simp
  | cons e rest ih =>
      obtain ⟨ek, ev⟩ := e
      by_cases he : ek = k
      · subst he
        simp
      · simp only [alookup_cons, if_neg he, ih, List.map_cons, List.mem_cons, not_or]
        constructor
        · intro hn
          exact ⟨fun h => he h.symm, hn⟩
        · intro hn
          exact hn.2

theorem aerase_sublist {α β : Type} [DecidableEq α] (l : List (α × β)) (k : α) :
    (aerase l k).Sublist l := by
  induction l with
  | nil => simp
  | cons e rest ih =>
      obtain ⟨ek, ev⟩ := e
      by_cases h : ek = k
      · rw [aerase_cons, if_pos h]
        exact List.Sublist.cons (ek, ev) (List.Sublist.refl rest)
      · rw [aerase_cons, if_neg h]
        exact List.Sublist.cons₂ (ek, ev) ih

theorem alookup_aerase_self {α β : Type} [DecidableEq α] {l : List (α × β)} {k : α}
    (hnd : (l.map Prod.fst).Nodup) : alookup (aerase l k) k = none := by
  induction l with
  | nil => simp
  | cons e rest ih =>
      obtain ⟨ek, ev⟩ := e
      simp only [List.map_cons, List.nodup_cons] at hnd
      by_cases h : ek = k
      · subst h
        simp only [aerase_cons, if_pos rfl]
        exact alookup_eq_none.mpr hnd.1
      · simp only [aerase_cons, if_neg h, alookup_cons]
        exact ih hnd.2

theorem aset_of_absent {α β : Type} [DecidableEq α] {l : List (α × β)} {k : α} (v : β)
    (h : alookup l k = none) : aset l k v = l ++ [(k, v)] := by
  induction l with
  | nil => simp
  | cons e rest ih =>
      obtain ⟨ek, ev⟩ := e
      by_cases he : ek = k
      · subst he
        simp at h
      · simp only [alookup_cons, if_neg he] at h
        simp [he, ih h]

theorem map_fst_aset_of_absent {α β : Type} [DecidableEq α] {l : List (α × β)} {k : α} (v : β)
    (h : alookup l k = none) : (aset l k v).map Prod.fst = l.map Prod.fst ++ [k] := by
  rw [aset_of_absent v h]
  simp

theorem map_fst_aset_of_present {α β : Type} [DecidableEq α] {l : List (α × β)} {k : α} {w : β}
    (v : β) (h : alookup l k = some w) : (aset l k v).map Prod.fst = l.map Prod.fst := by
  induction l with
  | nil => simp at h
  | cons e rest ih =>
      obtain ⟨ek, ev⟩ := e
      by_cases he : ek = k
      · subst he
        simp
      · simp only [alookup_cons, if_neg he] at h
        simp [he, ih h]

theorem nodup_fst_aset {α β : Type} [DecidableEq α] {l : List (α × β)} {k : α} (v : β)
    (hnd : (l.map Prod.fst).Nodup) : ((aset l k v).map Prod.fst).Nodup := by
  cases h : alookup l k with
  | none =>
      rw [map_fst_aset_of_absent v h]
      have hk : k ∉ l.map Prod.fst := alookup_eq_none.mp h
      simp [List.nodup_append, hnd, hk]
  | some w => rw [map_fst_aset_of_present v h]; exact hnd

theorem nodup_fst_aerase {α β : Type} [DecidableEq α] {l : List (α × β)} {k : α}
    (hnd : (l.map Prod.fst).Nodup) : ((aerase l k).map Prod.fst).Nodup :=
  ((aerase_sublist l k).map Prod.fst).nodup hnd

/-! ### Claim C5: removeProgramByKey on an unregistered key

`removeProgramByKey` looks up the key with `key_to_hash[key]`, whose
`operator[]` default-inserts id 0 for an unknown key.  When the first string
ever interned was the key of a stored program (so that program lives under
id 0), removing a key that was never registered deletes that unrelated
program and reports `true` — contradicting the function's own documented
contract ("true if the program was found and removed, false if it didn't
exist"). -/

/-- C5: the code, evaluated at the failing input.  In the store holding the
single fragment registered under key `"a"` (and no fragment under `"b"`),
`removeProgramByKey "b"` returns `true` and deletes the fragment stored under
`"a"`, leaving the program map empty. -/
theorem nc_C5_remove_misdeletes :
    (∀ e ∈ (ProgramStore.emptyStore.addProgram sampleHash "a" "x" []).programs,
        e.2.key ≠ "b") ∧
    ((ProgramStore.emptyStore.addProgram sampleHash "a" "x" []).removeProgramByKey "b").1
      = true ∧
    ((ProgramStore.emptyStore.addProgram sampleHash "a" "x" []).removeProgramByKey "b").2.programs
      = [] := by
  decide

/-! ### Claim C7: TTL marking -/

theorem groundTodayCalled_eq (calls : List String) :
    groundTodayCalled calls = calls.any (fun n => n = "today") := by
  have key : ∀ (cs : List String) (b : Bool),
      cs.foldl
        (fun td name =>
          if name ∈ functionHandlerNames then
            if name = "today" then true else td
          else td)
        b = (b || cs.any (fun n => n = "today")) := by
    intro cs
    induction cs with
    | nil => simp
    | cons c rest ih =>
        intro b
        rw [List.foldl_cons, List.any_cons, ih]
        by_cases hc : c = "today"
        · subst hc
          have hmem : "today" ∈ functionHandlerNames := by decide
          rw [if_pos hmem, if_pos rfl]
          simp
        · have hstep :
              (if c ∈ functionHandlerNames then
                  if c = "today" then true else b
                else b) = b := by
            by_cases hmem : c ∈ functionHandlerNames
            · rw [if_pos hmem, if_neg hc]
            · rw [if_neg hmem]
          rw [hstep]
          simp [hc]
  simpa [groundTodayCalled] using key calls false

/-- C7 counterexample: `daysSince` is one of the date-dependent handlers (its
implementation subtracts the parsed argument date from
`system_clock::now()`), yet a solve whose grounding invoked only `daysSince`
carries `valid_until = 0` — the code marks results only for the handler named
`today`. -/
theorem nc_C7_counterexample :
    "daysSince" ∈ dateDependentNames ∧
    "daysSince" ∈ functionHandlerNames ∧
    solveValidUntil ["daysSince"] 1760000000000 = 0 := by
  decide

/-- C7 amended: a solve result carries a non-zero valid-until timestamp
(equal to the next local midnight) if and only if the external function named
`today` was invoked during grounding; `daysSince`, though it also reads the
current date, does not mark the result. -/
theorem nc_C7_ttl_amended (calls : List String) (nextMidnight : Int)
    (hpos : 0 < nextMidnight) :
    (solveValidUntil calls nextMidnight ≠ 0 ↔ "today" ∈ calls) ∧
    ("today" ∈ calls → solveValidUntil calls nextMidnight = nextMidnight) := by
  have hmem : groundTodayCalled calls = true ↔ "today" ∈ calls := by
    rw [groundTodayCalled_eq, List.any_eq_true]
    simp
  by_cases hm : "today" ∈ calls
  · rw [solveValidUntil, if_pos (hmem.mpr hm)]
    exact ⟨⟨fun _ => hm, fun _ => by omega⟩, fun _ => rfl⟩
  · have hf : groundTodayCalled calls = false := by
      cases hgt : groundTodayCalled calls
      · rfl
      · exact absurd (hmem.mp hgt) hm
    rw [solveValidUntil, hf]
    simp only [Bool.false_eq_true, if_false]
    refine ⟨⟨fun h0 => absurd rfl h0, fun hmm => absurd hmm hm⟩, fun hmm => absurd hmm hm⟩

theorem nc_C7_witness :
    (0 : Int) < 86400000 ∧
    (solveValidUntil ["today"] 86400000 ≠ 0 ↔ "today" ∈ ["today"]) ∧
    ("today" ∈ ["today"] → solveValidUntil ["today"] 86400000 = 86400000) :=
  ⟨by decide, nc_C7_ttl_amended ["today"] 86400000 (by decide)⟩

/-! ### Claim C10: empty answer sets -/

theorem enumerateModels_eq_map (ms : List (List String)) (answers : List String) :
    enumerateModels answers ms =
      answers ++ ms.map (fun m => if m = [] then "" else buildAnswer m) := by
  induction ms generalizing answers with
  | nil => simp [enumerateModels]
  | cons m rest ih =>
      by_cases hm : m = [] <;>
        simp [enumerateModels, onModel, hm, ih]

/-- C10: the enumeration appends one answer per reported model and keeps
going (`go_on` stays set), and every model with zero shown atoms contributes
the empty string at its position in the answers list. -/
theorem nc_C10_empty_answer_sets (models : List (List String)) :
    (enumerateModels [] models).length = models.length ∧
    (∀ i : Nat, models[i]? = some [] → (enumerateModels [] models)[i]? = some "") := by
  constructor
  · simp [enumerateModels_eq_map]
  · intro i hi
    rw [enumerateModels_eq_map]
    simp [List.getElem?_map, hi]

theorem nc_C10_witness :
    ([[], ["a"]] : List (List String))[0]? = some [] ∧
    (enumerateModels [] [[], ["a"]])[0]? = some "" :=
  ⟨by decide, (nc_C10_empty_answer_sets [[], ["a"]]).2 0 (by decide)⟩

/-! ### Claim C9: registration input validation -/

/-- C9 counterexample: registering under the empty key succeeds — the binding
layer checks only argument presence and types, so `setProgram("", "p")`
stores a program under the key `""` instead of failing. -/
theorem nc_C9_counterexample :
    SetProgram sampleHash [] [NapiValue.nstring "", NapiValue.nstring "p"] =
      Except.ok [("", { content := "p", categories := [], hash := sampleHash "p" })] ∧
    (ProgramStore.emptyStore.addProgram sampleHash "" "p" []).programs ≠ [] := by
  constructor
  · rfl
  · decide

/-- C9 amended: registration rejects exactly the calls with fewer than two
arguments or a non-string key or content (a `TypeError` thrown before any
store mutation); every string key — the empty string included — is accepted
as opaque text and stored, and there are no other error conditions. -/
theorem nc_C9_validation_amended (xxh3 : String → Hash)
    (g : List (String × BindingProgram)) (info : List NapiValue) :
    ((∃ l, SetProgram xxh3 g info = Except.ok l) ↔
      ∃ k c rest, info = NapiValue.nstring k :: NapiValue.nstring c :: rest) ∧
    (∀ k c rest, info = NapiValue.nstring k :: NapiValue.nstring c :: rest →
      ∃ p : BindingProgram, SetProgram xxh3 g info = Except.ok (aset g k p) ∧
        p.content = c ∧ p.hash = xxh3 c ∧
        alookup (aset g k p) k = some p) := by
  constructor
  · constructor
    · rintro ⟨l, hl⟩
      cases info with
      | nil => simp [SetProgram] at hl
      | cons v rest1 =>
          cases v with
          | nstring k =>
              cases rest1 with
              | nil => simp [SetProgram] at hl
              | cons v2 rest2 =>
                  cases v2 with
                  | nstring c => exact ⟨k, c, rest2, rfl⟩
                  | narray a => simp [SetProgram] at hl
                  | nother => simp [SetProgram] at hl
          | narray a => simp [SetProgram] at hl
          | nother => simp [SetProgram] at hl
    · rintro ⟨k, c, rest, hinfo⟩
      subst hinfo
      exact ⟨_, rfl⟩
  · intro k c rest hinfo
    subst hinfo
    exact ⟨_, rfl, rfl, rfl, alookup_aset_self g k _⟩

theorem nc_C9_witness :
    ((∃ l, SetProgram sampleHash [] [NapiValue.nstring "", NapiValue.nstring "q"] =
        Except.ok l) ↔
      ∃ k c rest,
        [NapiValue.nstring "", NapiValue.nstring "q"] =
          NapiValue.nstring k :: NapiValue.nstring c :: rest) ∧
    (∀ k c rest,
      [NapiValue.nstring "", NapiValue.nstring "q"] =
        NapiValue.nstring k :: NapiValue.nstring c :: rest →
      ∃ p : BindingProgram,
        SetProgram sampleHash [] [NapiValue.nstring "", NapiValue.nstring "q"] =
          Except.ok (aset [] k p) ∧
        p.content = c ∧ p.hash = sampleHash c ∧
        alookup (aset [] k p) k = some p) :=
  nc_C9_validation_amended sampleHash [] [NapiValue.nstring "", NapiValue.nstring "q"]

/-! ### Claim C8: oversized-entry rejection -/

/-- C8 counterexample: when an entry already exists under the fingerprint,
inserting an oversized result is not a no-op — `addResult` removes the
existing entry before the capacity check, so the cache state changes (here
the previously cached entry under hash 1 disappears). -/
theorem nc_C8_counterexample :
    CACHE_CAPACITY_BYTES < estBig (sampleResult "big") ∧
    (SolveResultCache.emptyCache.addResult estBig 1 (sampleResult "x")).addResult estBig 1
        (sampleResult "big") ≠
      SolveResultCache.emptyCache.addResult estBig 1 (sampleResult "x") := by
  decide

/-- C8 amended: inserting a result whose estimated size exceeds the total
capacity never caches it and never evicts unrelated entries; the cache is
left entirely unchanged when no entry exists under the fingerprint, and when
one does exist, exactly that entry is removed (with its bytes and recency
slot) before the insert is dropped. -/
theorem nc_C8_oversized_amended (est : SolveResult → Nat) (c : SolveResultCache)
    (h : Hash) (r : SolveResult) (hov : CACHE_CAPACITY_BYTES < est r) :
    (alookup c.entries h = none → c.addResult est h r = c) ∧
    (∀ e, alookup c.entries h = some e →
      c.addResult est h r =
        { entries := aerase c.entries h, lru := c.lru.erase h,
          currentBytes := c.currentBytes - e.sizeBytes }) := by
  constructor
  · intro hnone
    simp only [SolveResultCache.addResult, hnone, if_pos hov]
  · intro e he
    simp only [SolveResultCache.addResult, he, if_pos hov]

theorem nc_C8_witness :
    CACHE_CAPACITY_BYTES < estBig (sampleResult "big") ∧
    alookup SolveResultCache.emptyCache.entries 7 = none ∧
    SolveResultCache.emptyCache.addResult estBig 7 (sampleResult "big") =
      SolveResultCache.emptyCache :=
  ⟨by decide, by decide,
    (nc_C8_oversized_amended estBig SolveResultCache.emptyCache 7 (sampleResult "big")
        (by decide)).1 (by decide)⟩

/-! ### Claim C6: cache lookup expiry semantics -/

/-- C6: for a fingerprint present in the cache, a lookup whose entry carries
a non-zero valid-until timestamp that the current time has passed evicts the
entry (from the entry map, the recency list, and the byte counter) and
reports a miss; otherwise the lookup promotes the entry to most recently
used and returns a copy of the stored result.  Timestamps written by the
system are non-negative (0 or a future midnight in epoch milliseconds),
which the hypothesis `hnn` records; for such values the claim's "non-zero"
coincides with the code's `valid_until > 0` check. -/
theorem nc_C6_lookup_expiry (c : SolveResultCache) (h : Hash) (now : Int) (e : Entry)
    (he : alookup c.entries h = some e) (hnn : 0 ≤ e.result.valid_until) :
    (e.result.valid_until ≠ 0 ∧ e.result.valid_until < now →
      (c.result now h).1 = none ∧
      (c.result now h).2.entries = aerase c.entries h ∧
      (c.result now h).2.lru = c.lru.erase h ∧
      (c.result now h).2.currentBytes = c.currentBytes - e.sizeBytes) ∧
    (¬(e.result.valid_until ≠ 0 ∧ e.result.valid_until < now) →
      (c.result now h).1 = some e.result ∧
      (c.result now h).2.entries = c.entries ∧
      (c.result now h).2.lru = h :: c.lru.erase h ∧
      (c.result now h).2.currentBytes = c.currentBytes) := by
  have hiff : (0 < e.result.valid_until ∧ e.result.valid_until < now) ↔
      (e.result.valid_until ≠ 0 ∧ e.result.valid_until < now) := by omega
  constructor
  · intro hexp
    simp [SolveResultCache.result, he, if_pos (hiff.mpr hexp)]
  · intro hexp
    simp [SolveResultCache.result, he, if_neg (fun hc => hexp (hiff.mp hc))]

theorem nc_C6_witness :
    ((SolveResultCache.emptyCache.addResult estBig 5
        { sampleResult "e" with valid_until := 100 }).result 200 5).1 = none :=
  ((nc_C6_lookup_expiry
      (SolveResultCache.emptyCache.addResult estBig 5
        { sampleResult "e" with valid_until := 100 })
      5 200
      { result := { sampleResult "e" with valid_until := 100 }, sizeBytes := 10 }
      (by decide) (by decide)).1 ⟨by decide, by decide⟩).1

/-! ### Claim C3: capacity invariant and LRU eviction order -/

/-- The sum of the estimated sizes of all cache entries. -/
def sumSizes (l : List (Hash × Entry)) : Nat :=
  (l.map (fun e => e.2.sizeBytes)).sum

@[simp] theorem sumSizes_nil : sumSizes [] = 0 := rfl

@[simp] theorem sumSizes_cons (e : Hash × Entry) (rest : List (Hash × Entry)) :
    sumSizes (e :: rest) = e.2.sizeBytes + sumSizes rest := by
  simp [sumSizes]

theorem sumSizes_aerase {l : List (Hash × Entry)} {k : Hash} {e : Entry}
    (h : alookup l k = some e) :
    sumSizes l = sumSizes (aerase l k) + e.sizeBytes := by
  induction l with
  | nil => simp at h
  | cons x rest ih =>
      obtain ⟨ek, ev⟩ := x
      by_cases he : ek = k
      · rw [alookup_cons, if_pos he] at h
        injection h with h2
        subst h2
        rw [aerase_cons, if_pos he]
        simp [Nat.add_comm]
      · rw [alookup_cons, if_neg he] at h
        rw [aerase_cons, if_neg he]
        simp only [sumSizes_cons]
        rw [ih h]
        omega

/-- Well-formedness of a cache state: entry keys are unique, the recency
list is duplicate-free and carries exactly the cached fingerprints, and the
byte counter equals the sum of the stored entry sizes. -/
structure CacheWF (c : SolveResultCache) : Prop where
  keysNodup : (c.entries.map Prod.fst).Nodup
  lruNodup : c.lru.Nodup
  memIff : ∀ h : Hash, h ∈ c.lru ↔ (alookup c.entries h).isSome
  bytesEq : c.currentBytes = sumSizes c.entries

theorem cacheWF_empty : CacheWF SolveResultCache.emptyCache := by
  refine ⟨by decide, by decide, ?_, rfl⟩
  intro h
  show h ∈ ([] : List Hash) ↔ (alookup ([] : List (Hash × Entry)) h).isSome
  simp

/-- Removing a present entry (entry map, recency slot, byte count) preserves
well-formedness; this is the shape shared by the refresh path of `addResult`
and the expiry path of `result`. -/
theorem cacheWF_remove {c : SolveResultCache} {h : Hash} {e : Entry}
    (wf : CacheWF c) (he : alookup c.entries h = some e) :
    CacheWF
      { entries := aerase c.entries h, lru := c.lru.erase h,
        currentBytes := c.currentBytes - e.sizeBytes } := by
  refine ⟨nodup_fst_aerase wf.keysNodup, wf.lruNodup.erase h, ?_, ?_⟩
  · intro a
    by_cases ha : a = h
    · subst ha
      rw [alookup_aerase_self wf.keysNodup]
      simp [List.Nodup.mem_erase_iff wf.lruNodup]
    · rw [alookup_aerase_of_ne _ _ _ ha]
      rw [List.Nodup.mem_erase_iff wf.lruNodup]
      rw [← wf.memIff a]
      simp [ha]
  · show c.currentBytes - e.sizeBytes = sumSizes (aerase c.entries h)
    rw [wf.bytesEq, sumSizes_aerase he]
    omega

theorem evictOnce_eq_idle {c : SolveResultCache} (hget : c.lru.getLast? = none) :
    evictOnce c = c := by
  rw [evictOnce, hget]

theorem evictOnce_eq_hit {c : SolveResultCache} {ev : Hash} {e : Entry}
    (hget : c.lru.getLast? = some ev) (halo : alookup c.entries ev = some e) :
    evictOnce c =
      { entries := aerase c.entries ev, lru := c.lru.dropLast,
        currentBytes := c.currentBytes - e.sizeBytes } := by
  rw [evictOnce, hget]
  simp only [halo]

theorem evictOnce_eq_miss {c : SolveResultCache} {ev : Hash}
    (hget : c.lru.getLast? = some ev) (halo : alookup c.entries ev = none) :
    evictOnce c = { c with lru := c.lru.dropLast } := by
  rw [evictOnce, hget]
  simp only [halo]

theorem evictOnce_lru (c : SolveResultCache) : (evictOnce c).lru = c.lru.dropLast := by
  cases hget : c.lru.getLast? with
  | none =>
      have hnil : c.lru = [] := List.getLast?_eq_none_iff.mp hget
      rw [evictOnce_eq_idle hget, hnil]
      rfl
  | some ev =>
      cases halo : alookup c.entries ev with
      | none => rw [evictOnce_eq_miss hget halo]
      | some e => rw [evictOnce_eq_hit hget halo]

theorem evictOnce_none_preserved {c : SolveResultCache} {h : Hash}
    (hn : alookup c.entries h = none) : alookup (evictOnce c).entries h = none := by
  cases hget : c.lru.getLast? with
  | none => rw [evictOnce_eq_idle hget]; exact hn
  | some ev =>
      cases halo : alookup c.entries ev with
      | none => rw [evictOnce_eq_miss hget halo]; exact hn
      | some e =>
          rw [evictOnce_eq_hit hget halo]
          by_cases hh : h = ev
          · subst hh
            rw [hn] at halo
            exact absurd halo (by simp)
          · show alookup (aerase c.entries ev) h = none
            rw [alookup_aerase_of_ne _ _ _ hh]
            exact hn

theorem cacheWF_evictOnce {c : SolveResultCache} (wf : CacheWF c) :
    CacheWF (evictOnce c) := by
  cases hget : c.lru.getLast? with
  | none => rw [evictOnce_eq_idle hget]; exact wf
  | some ev =>
      have hne : c.lru ≠ [] := by
        intro hnil
        rw [hnil] at hget
        simp at hget
      have hsplit : c.lru.dropLast ++ [ev] = c.lru := by
        have h1 := List.dropLast_append_getLast hne
        have h2 : c.lru.getLast hne = ev := by
          have h3 := List.getLast?_eq_getLast c.lru hne
          rw [h3] at hget
          injection hget
        rw [h2] at h1
        exact h1
      have hmemev : ev ∈ c.lru := by
        rw [← hsplit]
        simp
      have hnotin : ev ∉ c.lru.dropLast := by
        have hnd := wf.lruNodup
        rw [← hsplit] at hnd
        have hdisj := List.disjoint_of_nodup_append hnd
        intro hcon
        exact hdisj hcon (by simp)
      cases halo : alookup c.entries ev with
      | none =>
          exact absurd ((wf.memIff ev).mp hmemev) (by simp [halo])
      | some e =>
          rw [evictOnce_eq_hit hget halo]
          refine ⟨nodup_fst_aerase wf.keysNodup, ?_, ?_, ?_⟩
          · have hnd := wf.lruNodup
            rw [← hsplit] at hnd
            exact (List.nodup_append.mp hnd).1
          · intro a
            by_cases ha : a = ev
            · subst ha
              show a ∈ c.lru.dropLast ↔ (alookup (aerase c.entries a) a).isSome
              rw [alookup_aerase_self wf.keysNodup]
              simp [hnotin]
            · show a ∈ c.lru.dropLast ↔ (alookup (aerase c.entries ev) a).isSome
              rw [alookup_aerase_of_ne _ _ _ ha, ← wf.memIff a]
              constructor
              · intro hmem
                rw [← hsplit]
                exact List.mem_append_left _ hmem
              · intro hmem
                rw [← hsplit] at hmem
                rcases List.mem_append.mp hmem with hm | hm
                · exact hm
                · simp at hm
                  exact absurd hm ha
          · show c.currentBytes - e.sizeBytes = sumSizes (aerase c.entries ev)
            rw [wf.bytesEq, sumSizes_aerase halo]
            omega

theorem cacheWF_evictLoopFuel (bytes : Nat) :
    ∀ (n : Nat) (c : SolveResultCache), CacheWF c → CacheWF (evictLoopFuel bytes n c) := by
  intro n
  induction n with
  | zero => intro c wf; exact wf
  | succ m ih =>
      intro c wf
      rw [evictLoopFuel]
      by_cases hc : CACHE_CAPACITY_BYTES < c.currentBytes + bytes ∧ c.lru ≠ []
      · rw [if_pos hc]
        exact ih _ (cacheWF_evictOnce wf)
      · rw [if_neg hc]
        exact wf

theorem evictLoopFuel_none_preserved (bytes : Nat) :
    ∀ (n : Nat) (c : SolveResultCache) (h : Hash), alookup c.entries h = none →
      alookup (evictLoopFuel bytes n c).entries h = none := by
  intro n
  induction n with
  | zero => intro c h hn; exact hn
  | succ m ih =>
      intro c h hn
      rw [evictLoopFuel]
      by_cases hc : CACHE_CAPACITY_BYTES < c.currentBytes + bytes ∧ c.lru ≠ []
      · rw [if_pos hc]
        exact ih _ _ (evictOnce_none_preserved hn)
      · rw [if_neg hc]
        exact hn

theorem evictLoopFuel_lru_take (bytes : Nat) :
    ∀ (n : Nat) (c : SolveResultCache), ∃ k, (evictLoopFuel bytes n c).lru = c.lru.take k := by
  intro n
  induction n with
  | zero =>
      intro c
      exact ⟨c.lru.length, (List.take_length c.lru).symm⟩
  | succ m ih =>
      intro c
      rw [evictLoopFuel]
      by_cases hc : CACHE_CAPACITY_BYTES < c.currentBytes + bytes ∧ c.lru ≠ []
      · rw [if_pos hc]
        obtain ⟨k, hk⟩ := ih (evictOnce c)
        refine ⟨min k (c.lru.length - 1), ?_⟩
        rw [hk, evictOnce_lru, List.dropLast_eq_take, List.take_take]
      · rw [if_neg hc]
        exact ⟨c.lru.length, (List.take_length c.lru).symm⟩

theorem evictLoopFuel_post (bytes : Nat) :
    ∀ (n : Nat) (c : SolveResultCache), c.lru.length ≤ n →
      (evictLoopFuel bytes n c).currentBytes + bytes ≤ CACHE_CAPACITY_BYTES ∨
      (evictLoopFuel bytes n c).lru = [] := by
  intro n
  induction n with
  | zero =>
      intro c hlen
      right
      exact List.length_eq_zero.mp (Nat.le_zero.mp hlen)
  | succ m ih =>
      intro c hlen
      rw [evictLoopFuel]
      by_cases hc : CACHE_CAPACITY_BYTES < c.currentBytes + bytes ∧ c.lru ≠ []
      · rw [if_pos hc]
        refine ih _ ?_
        rw [evictOnce_lru, List.length_dropLast]
        have : c.lru.length ≠ 0 := by
          intro h0
          exact hc.2 (List.length_eq_zero.mp h0)
        omega
      · rw [if_neg hc]
        rcases Decidable.not_and_iff_or_not.mp hc with hb | hl
        · left
          omega
        · right
          exact Decidable.not_not.mp hl

/-- A well-formed cache with an empty recency list holds no entries and no
bytes. -/
theorem cacheWF_lru_nil {c : SolveResultCache} (wf : CacheWF c) (hl : c.lru = []) :
    c.currentBytes = 0 := by
  cases hent : c.entries with
  | nil => rw [wf.bytesEq, hent]; rfl
  | cons x rest =>
      obtain ⟨ek, ev⟩ := x
      have : ek ∈ c.lru := by
        rw [wf.memIff ek, hent]
        simp
      rw [hl] at this
      simp at this

theorem addResult_eq_of_none {est : SolveResult → Nat} {c : SolveResultCache} {h : Hash}
    {r : SolveResult} (halookup : alookup c.entries h = none) :
    c.addResult est h r =
      if CACHE_CAPACITY_BYTES < est r then c
      else
        { entries := aset (evictLoop (est r) c).entries h { result := r, sizeBytes := est r },
          lru := h :: (evictLoop (est r) c).lru,
          currentBytes := (evictLoop (est r) c).currentBytes + est r } := by
  rw [SolveResultCache.addResult]
  simp only [halookup]

theorem addResult_eq_of_some {est : SolveResult → Nat} {c : SolveResultCache} {h : Hash}
    {r : SolveResult} {e : Entry} (halookup : alookup c.entries h = some e) :
    c.addResult est h r =
      (if CACHE_CAPACITY_BYTES < est r then
        { entries := aerase c.entries h, lru := c.lru.erase h,
          currentBytes := c.currentBytes - e.sizeBytes }
      else
        { entries :=
            aset (evictLoop (est r)
              { entries := aerase c.entries h, lru := c.lru.erase h,
                currentBytes := c.currentBytes - e.sizeBytes }).entries h
              { result := r, sizeBytes := est r },
          lru := h :: (evictLoop (est r)
              { entries := aerase c.entries h, lru := c.lru.erase h,
                currentBytes := c.currentBytes - e.sizeBytes }).lru,
          currentBytes := (evictLoop (est r)
              { entries := aerase c.entries h, lru := c.lru.erase h,
                currentBytes := c.currentBytes - e.sizeBytes }).currentBytes + est r }) := by
  rw [SolveResultCache.addResult]
  simp only [halookup]

/-- The insert stage of `addResult`, specified for any cache `c1` that no
longer contains the fingerprint (the state after the refresh removal): the
result is well-formed, its byte count stays within the capacity, and its
recency list is the new fingerprint in front of a prefix of `c1`'s recency
list (entries leave strictly from the least-recently-used end). -/
theorem insert_stage_spec (est : SolveResult → Nat) (r : SolveResult) (h : Hash)
    (c1 : SolveResultCache) (wf1 : CacheWF c1) (hnone : alookup c1.entries h = none)
    (hbytes : est r ≤ CACHE_CAPACITY_BYTES) :
    CacheWF
      { entries := aset (evictLoop (est r) c1).entries h { result := r, sizeBytes := est r },
        lru := h :: (evictLoop (est r) c1).lru,
        currentBytes := (evictLoop (est r) c1).currentBytes + est r } ∧
    (evictLoop (est r) c1).currentBytes + est r ≤ CACHE_CAPACITY_BYTES ∧
    ∃ n, (evictLoop (est r) c1).lru = c1.lru.take n := by
  have wf2 : CacheWF (evictLoop (est r) c1) :=
    cacheWF_evictLoopFuel (est r) c1.lru.length c1 wf1
  have hnone2 : alookup (evictLoop (est r) c1).entries h = none :=
    evictLoopFuel_none_preserved (est r) c1.lru.length c1 h hnone
  have hfit : (evictLoop (est r) c1).currentBytes + est r ≤ CACHE_CAPACITY_BYTES := by
    rcases evictLoopFuel_post (est r) c1.lru.length c1 (Nat.le_refl _) with hle | hnil
    · exact hle
    · have h0 : (evictLoop (est r) c1).currentBytes = 0 := cacheWF_lru_nil wf2 hnil
      rw [evictLoop] at h0
      rw [evictLoop, h0]
      omega
  have hnotlru : h ∉ (evictLoop (est r) c1).lru := by
    rw [wf2.memIff h, hnone2]
    simp
  refine ⟨⟨?_, ?_, ?_, ?_⟩, hfit, evictLoopFuel_lru_take (est r) c1.lru.length c1⟩
  · show ((aset (evictLoop (est r) c1).entries h
      { result := r, sizeBytes := est r }).map Prod.fst).Nodup
    rw [map_fst_aset_of_absent _ hnone2]
    rw [List.nodup_append]
    refine ⟨wf2.keysNodup, List.nodup_singleton h, ?_⟩
    intro a ha hsing
    simp at hsing
    subst hsing
    exact absurd ha (alookup_eq_none.mp hnone2)
  · show (h :: (evictLoop (est r) c1).lru).Nodup
    exact List.nodup_cons.mpr ⟨hnotlru, wf2.lruNodup⟩
  · intro a
    by_cases ha : a = h
    · subst ha
      show a ∈ a :: _ ↔ (alookup (aset _ a _) a).isSome
      rw [alookup_aset_self]
      simp
    · show a ∈ h :: (evictLoop (est r) c1).lru ↔
        (alookup (aset (evictLoop (est r) c1).entries h _) a).isSome
      rw [alookup_aset_of_ne _ _ _ _ ha, ← wf2.memIff a]
      simp [ha]
  · show (evictLoop (est r) c1).currentBytes + est r =
      sumSizes (aset (evictLoop (est r) c1).entries h { result := r, sizeBytes := est r })
    rw [aset_of_absent _ hnone2, wf2.bytesEq]
    simp [sumSizes]

/-- Full specification of `addResult` on a well-formed cache within
capacity: well-formedness is preserved, the byte counter (equal to the sum
of entry sizes) never exceeds the capacity, and, when the result is not
oversized, the new recency list is the inserted fingerprint followed by a
prefix of the previous recency list with the refreshed fingerprint removed
(so evictions take strictly the least-recently-used entries). -/
theorem addResult_spec (est : SolveResult → Nat) (c : SolveResultCache) (h : Hash)
    (r : SolveResult) (wf : CacheWF c) (hcap : c.currentBytes ≤ CACHE_CAPACITY_BYTES) :
    CacheWF (c.addResult est h r) ∧
    (c.addResult est h r).currentBytes ≤ CACHE_CAPACITY_BYTES ∧
    (c.addResult est h r).currentBytes = sumSizes (c.addResult est h r).entries ∧
    (est r ≤ CACHE_CAPACITY_BYTES →
      ∃ n, (c.addResult est h r).lru = h :: (c.lru.erase h).take n) := by
  cases halookup : alookup c.entries h with
  | none =>
      have herase : c.lru.erase h = c.lru := by
        refine List.erase_of_not_mem ?_
        rw [wf.memIff h, halookup]
        simp
      rw [addResult_eq_of_none halookup]
      by_cases hov : CACHE_CAPACITY_BYTES < est r
      · rw [if_pos hov]
        refine ⟨wf, hcap, wf.bytesEq, ?_⟩
        intro hle
        omega
      · rw [if_neg hov]
        have hbytes : est r ≤ CACHE_CAPACITY_BYTES := Nat.le_of_not_lt hov
        obtain ⟨wfF, hfit, n, hn⟩ := insert_stage_spec est r h c wf halookup hbytes
        exact ⟨wfF, hfit, wfF.bytesEq, fun _ => ⟨n, by rw [herase]; simp [hn]⟩⟩
  | some e =>
      have wf1 : CacheWF
          { entries := aerase c.entries h, lru := c.lru.erase h,
            currentBytes := c.currentBytes - e.sizeBytes } := cacheWF_remove wf halookup
      have hcap1 : c.currentBytes - e.sizeBytes ≤ CACHE_CAPACITY_BYTES := by omega
      have hnone1 : alookup (aerase c.entries h) h = none :=
        alookup_aerase_self wf.keysNodup
      rw [addResult_eq_of_some halookup]
      by_cases hov : CACHE_CAPACITY_BYTES < est r
      · rw [if_pos hov]
        refine ⟨wf1, hcap1, wf1.bytesEq, ?_⟩
        intro hle
        omega
      · rw [if_neg hov]
        have hbytes : est r ≤ CACHE_CAPACITY_BYTES := Nat.le_of_not_lt hov
        obtain ⟨wfF, hfit, n, hn⟩ := insert_stage_spec est r h _ wf1 hnone1 hbytes
        exact ⟨wfF, hfit, wfF.bytesEq, fun _ => ⟨n, by simp [hn]⟩⟩

/-- Lookups preserve well-formedness and the capacity bound. -/
theorem result_preserves_wf (now : Int) (c : SolveResultCache) (h : Hash)
    (wf : CacheWF c) (hcap : c.currentBytes ≤ CACHE_CAPACITY_BYTES) :
    CacheWF (c.result now h).2 ∧ (c.result now h).2.currentBytes ≤ CACHE_CAPACITY_BYTES := by
  cases halookup : alookup c.entries h with
  | none =>
      have : (c.result now h).2 = c := by
        simp [SolveResultCache.result, halookup]
      rw [this]
      exact ⟨wf, hcap⟩
  | some e =>
      by_cases hexp : 0 < e.result.valid_until ∧ e.result.valid_until < now
      · have heq : (c.result now h).2 =
            { entries := aerase c.entries h, lru := c.lru.erase h,
              currentBytes := c.currentBytes - e.sizeBytes } := by
          simp [SolveResultCache.result, halookup, if_pos hexp]
        rw [heq]
        refine ⟨cacheWF_remove wf halookup, ?_⟩
        show c.currentBytes - e.sizeBytes ≤ CACHE_CAPACITY_BYTES
        omega
      · have heq : (c.result now h).2 = { c with lru := h :: c.lru.erase h } := by
          simp [SolveResultCache.result, halookup, if_neg hexp]
        rw [heq]
        have hmem : h ∈ c.lru := by
          rw [wf.memIff h, halookup]
          simp
        refine ⟨⟨wf.keysNodup, ?_, ?_, wf.bytesEq⟩, hcap⟩
        · refine List.nodup_cons.mpr ⟨?_, wf.lruNodup.erase h⟩
          intro hcon
          rw [List.Nodup.mem_erase_iff wf.lruNodup] at hcon
          exact hcon.1 rfl
        · intro a
          by_cases ha : a = h
          · subst ha
            show a ∈ a :: _ ↔ _
            rw [halookup]
            simp
          · show a ∈ h :: c.lru.erase h ↔ _
            rw [← wf.memIff a]
            simp only [List.mem_cons, List.Nodup.mem_erase_iff wf.lruNodup]
            constructor
            · rintro (hc | hc)
              · exact absurd hc ha
              · exact hc.2
            · intro hc
              exact Or.inr ⟨ha, hc⟩

/-- C3: on every well-formed cache within capacity, (a) `addResult` keeps
the cache well-formed with the byte counter equal to the sum of the entry
sizes and never above the 16 MiB capacity, and evicts strictly from the
least-recently-used end (the resulting recency list is the inserted
fingerprint in front of a prefix of the previous one); (b) a non-expired
hit promotes the looked-up fingerprint to most recently used; (c) lookups
preserve well-formedness and the capacity bound; and (d) in the concrete
scenario with entries sized so that exactly two fit, after inserting A, B, C
in that order, a lookup for A misses while B and C remain, C most recent. -/
theorem nc_C3_capacity_lru :
    (∀ (est : SolveResult → Nat) (c : SolveResultCache) (h : Hash) (r : SolveResult),
      CacheWF c → c.currentBytes ≤ CACHE_CAPACITY_BYTES →
        CacheWF (c.addResult est h r) ∧
        (c.addResult est h r).currentBytes ≤ CACHE_CAPACITY_BYTES ∧
        (c.addResult est h r).currentBytes = sumSizes (c.addResult est h r).entries ∧
        (est r ≤ CACHE_CAPACITY_BYTES →
          ∃ n, (c.addResult est h r).lru = h :: (c.lru.erase h).take n)) ∧
    (∀ (now : Int) (c : SolveResultCache) (h : Hash) (e : Entry),
      alookup c.entries h = some e →
      ¬(0 < e.result.valid_until ∧ e.result.valid_until < now) →
        (c.result now h).2.lru = h :: c.lru.erase h) ∧
    (∀ (now : Int) (c : SolveResultCache) (h : Hash),
      CacheWF c → c.currentBytes ≤ CACHE_CAPACITY_BYTES →
        CacheWF (c.result now h).2 ∧
        (c.result now h).2.currentBytes ≤ CACHE_CAPACITY_BYTES) ∧
    (((((SolveResultCache.emptyCache.addResult estSeven 1 (sampleResult "A")).addResult
          estSeven 2 (sampleResult "B")).addResult estSeven 3
          (sampleResult "C")).result 0 1).1 = none ∧
      ((((SolveResultCache.emptyCache.addResult estSeven 1 (sampleResult "A")).addResult
          estSeven 2 (sampleResult "B")).addResult estSeven 3
          (sampleResult "C")).result 0 2).1 = some (sampleResult "B") ∧
      ((((SolveResultCache.emptyCache.addResult estSeven 1 (sampleResult "A")).addResult
          estSeven 2 (sampleResult "B")).addResult estSeven 3
          (sampleResult "C")).result 0 3).1 = some (sampleResult "C") ∧
      (((SolveResultCache.emptyCache.addResult estSeven 1 (sampleResult "A")).addResult
          estSeven 2 (sampleResult "B")).addResult estSeven 3
          (sampleResult "C")).lru = [3, 2]) := by
  refine ⟨?_, ?_, ?_, by decide, by decide, by decide, by decide⟩
  · intro est c h r wf hcap
    exact addResult_spec est c h r wf hcap
  · intro now c h e he hexp
    simp [SolveResultCache.result, he, if_neg hexp]
  · intro now c h wf hcap
    exact result_preserves_wf now c h wf hcap

theorem nc_C3_witness :
    CacheWF SolveResultCache.emptyCache ∧
    SolveResultCache.emptyCache.currentBytes ≤ CACHE_CAPACITY_BYTES ∧
    (CacheWF (SolveResultCache.emptyCache.addResult estSeven 1 (sampleResult "A")) ∧
      (SolveResultCache.emptyCache.addResult estSeven 1
        (sampleResult "A")).currentBytes ≤ CACHE_CAPACITY_BYTES ∧
      (SolveResultCache.emptyCache.addResult estSeven 1
          (sampleResult "A")).currentBytes =
        sumSizes (SolveResultCache.emptyCache.addResult estSeven 1
          (sampleResult "A")).entries ∧
      (estSeven (sampleResult "A") ≤ CACHE_CAPACITY_BYTES →
        ∃ n, (SolveResultCache.emptyCache.addResult estSeven 1 (sampleResult "A")).lru =
          1 :: (SolveResultCache.emptyCache.lru.erase 1).take n)) :=
  ⟨cacheWF_empty, by decide,
    nc_C3_capacity_lru.1 estSeven SolveResultCache.emptyCache 1 (sampleResult "A")
      cacheWF_empty (by decide)⟩

/-! ### Program-store state lemmas -/

/-- Membership of a program identity in a category's index entry. -/
def memCat (m : List (KeyHash × List Nat)) (ch : KeyHash) (pid : Nat) : Prop :=
  ∃ pids, alookup m ch = some pids ∧ pid ∈ pids

theorem getOrCreateHash_spec (s : ProgramStore) (k : String) :
    (s.getOrCreateHash k).2.programs = s.programs ∧
    (s.getOrCreateHash k).2.programsByCategory = s.programsByCategory ∧
    (s.getOrCreateHash k).2.nextPid = s.nextPid ∧
    s.nextKey ≤ (s.getOrCreateHash k).2.nextKey ∧
    alookup (s.getOrCreateHash k).2.keyToHash k = some (s.getOrCreateHash k).1 ∧
    (∀ a, a ≠ k → alookup (s.getOrCreateHash k).2.keyToHash a = alookup s.keyToHash a) ∧
    ((s.keyToHash.map Prod.fst).Nodup →
      ((s.getOrCreateHash k).2.keyToHash.map Prod.fst).Nodup) := by
  rw [ProgramStore.getOrCreateHash]
  cases halookup : alookup s.keyToHash k with
  | some h =>
      refine ⟨rfl, rfl, rfl, Nat.le_refl _, halookup, fun a _ => rfl, fun hnd => hnd⟩
  | none =>
      refine ⟨rfl, rfl, rfl, Nat.le_succ _, alookup_aset_self _ _ _, ?_, ?_⟩
      · intro a ha
        exact alookup_aset_of_ne _ _ _ _ ha
      · intro hnd
        exact nodup_fst_aset _ hnd

/-- State preservation for the interning fold used by `addProgram`. -/
theorem internFold_state (cats : List String) :
    ∀ (acc : List KeyHash × ProgramStore),
      (cats.foldl
        (fun acc c =>
          let r := acc.2.getOrCreateHash c
          (acc.1 ++ [r.1], r.2)) acc).2.programs = acc.2.programs ∧
      (cats.foldl
        (fun acc c =>
          let r := acc.2.getOrCreateHash c
          (acc.1 ++ [r.1], r.2)) acc).2.programsByCategory = acc.2.programsByCategory ∧
      (cats.foldl
        (fun acc c =>
          let r := acc.2.getOrCreateHash c
          (acc.1 ++ [r.1], r.2)) acc).2.nextPid = acc.2.nextPid ∧
      ((acc.2.keyToHash.map Prod.fst).Nodup →
        ((cats.foldl
          (fun acc c =>
            let r := acc.2.getOrCreateHash c
            (acc.1 ++ [r.1], r.2)) acc).2.keyToHash.map Prod.fst).Nodup) := by
  induction cats with
  | nil => intro acc; exact ⟨rfl, rfl, rfl, fun hnd => hnd⟩
  | cons cat rest ih =>
      intro acc
      rw [List.foldl_cons]
      obtain ⟨hp, hb, hn, hk⟩ :=
        ih (acc.1 ++ [(acc.2.getOrCreateHash cat).1], (acc.2.getOrCreateHash cat).2)
      obtain ⟨gp, gb, gn, _, _, _, gk⟩ := getOrCreateHash_spec acc.2 cat
      refine ⟨?_, ?_, ?_, ?_⟩
      · rw [hp]; exact gp
      · rw [hb]; exact gb
      · rw [hn]; exact gn
      · intro hnd
        exact hk (gk hnd)

theorem internAll_state (s : ProgramStore) (cats : List String) :
    (internAll s cats).2.programs = s.programs ∧
    (internAll s cats).2.programsByCategory = s.programsByCategory ∧
    (internAll s cats).2.nextPid = s.nextPid ∧
    ((s.keyToHash.map Prod.fst).Nodup →
      ((internAll s cats).2.keyToHash.map Prod.fst).Nodup) := by
  rw [internAll]
  exact internFold_state cats ([], s)

/-- The store component after one resolution step is exactly the store after
interning the reference. -/
theorem refStep_store (st : RState) (reference : String) :
    (refStep st reference).s = (st.s.getOrCreateHash reference).2 := by
  rw [refStep]
  cases hprog : alookup (st.s.getOrCreateHash reference).2.programs
      (st.s.getOrCreateHash reference).1 with
  | some p =>
      by_cases hseen : p.pid ∈ st.seen <;> simp [hseen]
  | none =>
      cases hcat : alookup (st.s.getOrCreateHash reference).2.programsByCategory
          (st.s.getOrCreateHash reference).1 with
      | some pids => simp
      | none => simp

/-- One resolution step leaves the program map, the category index and the
allocation counter untouched (only `key_to_hash`/`next_key` may change). -/
theorem refStep_state (st : RState) (reference : String) :
    (refStep st reference).s.programs = st.s.programs ∧
    (refStep st reference).s.programsByCategory = st.s.programsByCategory ∧
    (refStep st reference).s.nextPid = st.s.nextPid ∧
    ((st.s.keyToHash.map Prod.fst).Nodup →
      ((refStep st reference).s.keyToHash.map Prod.fst).Nodup) := by
  obtain ⟨gp, gb, gn, -, -, -, gk⟩ := getOrCreateHash_spec st.s reference
  rw [refStep_store]
  exact ⟨gp, gb, gn, gk⟩

theorem resolveFold_state (refs : List String) :
    ∀ (st : RState),
      (refs.foldl refStep st).s.programs = st.s.programs ∧
      (refs.foldl refStep st).s.programsByCategory = st.s.programsByCategory ∧
      (refs.foldl refStep st).s.nextPid = st.s.nextPid ∧
      ((st.s.keyToHash.map Prod.fst).Nodup →
        ((refs.foldl refStep st).s.keyToHash.map Prod.fst).Nodup) := by
  induction refs with
  | nil => intro st; exact ⟨rfl, rfl, rfl, fun hnd => hnd⟩
  | cons r rest ih =>
      intro st
      rw [List.foldl_cons]
      obtain ⟨hp, hb, hn, hk⟩ := ih (refStep st r)
      obtain ⟨gp, gb, gn, gk⟩ := refStep_state st r
      refine ⟨?_, ?_, ?_, ?_⟩
      · rw [hp]; exact gp
      · rw [hb]; exact gb
      · rw [hn]; exact gn
      · intro hnd
        exact hk (gk hnd)

theorem programByReferences_state (s : ProgramStore) (refs : List String) :
    (s.programByReferences refs).2.programs = s.programs ∧
    (s.programByReferences refs).2.programsByCategory = s.programsByCategory ∧
    (s.programByReferences refs).2.nextPid = s.nextPid ∧
    ((s.keyToHash.map Prod.fst).Nodup →
      ((s.programByReferences refs).2.keyToHash.map Prod.fst).Nodup) := by
  rw [ProgramStore.programByReferences]
  exact resolveFold_state refs ⟨s, [], []⟩

/-! ### Category index lemmas -/

theorem mem_aset_cases {α β : Type} [DecidableEq α] {l : List (α × β)} {k : α} {v : β}
    {x : α × β} (hx : x ∈ aset l k v) : x = (k, v) ∨ x ∈ l := by
  induction l with
  | nil =>
      simp at hx
      exact Or.inl hx
  | cons e rest ih =>
      obtain ⟨ek, ev⟩ := e
      by_cases he : ek = k
      · rw [aset_cons, if_pos he] at hx
        rcases List.mem_cons.mp hx with hc | hc
        · exact Or.inl hc
        · exact Or.inr (List.mem_cons_of_mem _ hc)
      · rw [aset_cons, if_neg he] at hx
        rcases List.mem_cons.mp hx with hc | hc
        · exact Or.inr (hc ▸ List.mem_cons_self _ _)
        · rcases ih hc with hd | hd
          · exact Or.inl hd
          · exact Or.inr (List.mem_cons_of_mem _ hd)

theorem memCat_pushCat (m : List (KeyHash × List Nat)) (c : KeyHash) (pid0 : Nat)
    (ch : KeyHash) (pid : Nat) :
    memCat (pushCat m c pid0) ch pid ↔ memCat m ch pid ∨ (ch = c ∧ pid = pid0) := by
  rw [pushCat]
  cases halookup : alookup m c with
  | some v =>
      by_cases hc : ch = c
      · subst hc
        rw [memCat, memCat]
        rw [alookup_aset_self, halookup]
        constructor
        · rintro ⟨pids, hp, hm⟩
          injection hp with hp
          subst hp
          rcases List.mem_append.mp hm with hm2 | hm2
          · exact Or.inl ⟨v, rfl, hm2⟩
          · simp at hm2
            exact Or.inr ⟨rfl, hm2⟩
        · rintro (⟨pids, hp, hm⟩ | ⟨_, hpid⟩)
          · injection hp with hp
            subst hp
            exact ⟨v ++ [pid0], rfl, List.mem_append_left _ hm⟩
          · exact ⟨v ++ [pid0], rfl, by simp [hpid]⟩
      · rw [memCat, memCat, alookup_aset_of_ne _ _ _ _ hc]
        constructor
        · intro hm
          exact Or.inl hm
        · rintro (hm | ⟨hcc, _⟩)
          · exact hm
          · exact absurd hcc hc
  | none =>
      by_cases hc : ch = c
      · subst hc
        rw [memCat, memCat]
        rw [alookup_aset_self, halookup]
        constructor
        · rintro ⟨pids, hp, hm⟩
          injection hp with hp
          subst hp
          simp at hm
          exact Or.inr ⟨rfl, hm⟩
        · rintro (⟨pids, hp, hm⟩ | ⟨_, hpid⟩)
          · simp at hp
          · exact ⟨[pid0], rfl, by simp [hpid]⟩
      · rw [memCat, memCat, alookup_aset_of_ne _ _ _ _ hc]
        constructor
        · intro hm
          exact Or.inl hm
        · rintro (hm | ⟨hcc, _⟩)
          · exact hm
          · exact absurd hcc hc

theorem memCat_foldPush (cs : List KeyHash) (pid0 : Nat) :
    ∀ (m : List (KeyHash × List Nat)) (ch : KeyHash) (pid : Nat),
      memCat (cs.foldl (fun m c => pushCat m c pid0) m) ch pid ↔
        memCat m ch pid ∨ (ch ∈ cs ∧ pid = pid0) := by
  induction cs with
  | nil =>
      intro m ch pid
      simp
  | cons c rest ih =>
      intro m ch pid
      rw [List.foldl_cons, ih, memCat_pushCat]
      constructor
      · rintro ((hm | ⟨hc, hp⟩) | ⟨hc, hp⟩)
        · exact Or.inl hm
        · exact Or.inr ⟨by simp [hc], hp⟩
        · exact Or.inr ⟨List.mem_cons_of_mem _ hc, hp⟩
      · rintro (hm | ⟨hc, hp⟩)
        · exact Or.inl (Or.inl hm)
        · rcases List.mem_cons.mp hc with hc2 | hc2
          · exact Or.inl (Or.inr ⟨hc2, hp⟩)
          · exact Or.inr ⟨hc2, hp⟩

theorem pushCat_keys_nodup {m : List (KeyHash × List Nat)} {c : KeyHash} {pid0 : Nat}
    (hnd : (m.map Prod.fst).Nodup) : ((pushCat m c pid0).map Prod.fst).Nodup := by
  rw [pushCat]
  cases alookup m c <;> exact nodup_fst_aset _ hnd

theorem foldPush_keys_nodup (cs : List KeyHash) (pid0 : Nat) :
    ∀ (m : List (KeyHash × List Nat)), (m.map Prod.fst).Nodup →
      ((cs.foldl (fun m c => pushCat m c pid0) m).map Prod.fst).Nodup := by
  induction cs with
  | nil => intro m hnd; exact hnd
  | cons c rest ih =>
      intro m hnd
      rw [List.foldl_cons]
      exact ih _ (pushCat_keys_nodup hnd)

theorem pushCat_pid_bound {P : Nat → Prop} {m : List (KeyHash × List Nat)} {c : KeyHash}
    {pid0 : Nat} (hm : ∀ ce ∈ m, ∀ q ∈ ce.2, P q) (h0 : P pid0) :
    ∀ ce ∈ pushCat m c pid0, ∀ q ∈ ce.2, P q := by
  intro ce hce q hq
  rw [pushCat] at hce
  cases halookup : alookup m c with
  | some v =>
      rw [halookup] at hce
      rcases mem_aset_cases hce with hc | hc
      · subst hc
        rcases List.mem_append.mp hq with hm2 | hm2
        · exact hm _ (alookup_mem halookup) q hm2
        · simp at hm2
          exact hm2 ▸ h0
      · exact hm _ hc q hq
  | none =>
      rw [halookup] at hce
      rcases mem_aset_cases hce with hc | hc
      · subst hc
        simp at hq
        exact hq ▸ h0
      · exact hm _ hc q hq

theorem foldPush_pid_bound {P : Nat → Prop} (cs : List KeyHash) (pid0 : Nat)
    (h0 : P pid0) :
    ∀ (m : List (KeyHash × List Nat)), (∀ ce ∈ m, ∀ q ∈ ce.2, P q) →
      ∀ ce ∈ cs.foldl (fun m c => pushCat m c pid0) m, ∀ q ∈ ce.2, P q := by
  induction cs with
  | nil => intro m hm; exact hm
  | cons c rest ih =>
      intro m hm
      rw [List.foldl_cons]
      exact ih _ (pushCat_pid_bound hm h0)

/-! ### Store well-formedness and reachability -/

/-- Invariants of every store state the public operations can construct:
program-map keys and allocation identities are unique, all identities are
below the allocation counter (also inside the category index), index keys
and interning keys are unique, every stored program's hash is the hash of
its content, and a stored program's identity sits in exactly the category
entries it was registered with. -/
structure StoreWF (xxh3 : String → Hash) (s : ProgramStore) : Prop where
  progKeysNodup : (s.programs.map Prod.fst).Nodup
  pidsNodup : (s.programs.map (fun e => e.2.pid)).Nodup
  pidsLt : ∀ e ∈ s.programs, e.2.pid < s.nextPid
  catPidsLt : ∀ ce ∈ s.programsByCategory, ∀ q ∈ ce.2, q < s.nextPid
  catKeysNodup : (s.programsByCategory.map Prod.fst).Nodup
  k2hKeysNodup : (s.keyToHash.map Prod.fst).Nodup
  hashConsistent : ∀ e ∈ s.programs, e.2.hash = xxh3 e.2.content
  catInv : ∀ e ∈ s.programs, ∀ ch,
    memCat s.programsByCategory ch e.2.pid ↔ ch ∈ e.2.regCategories

/-- The store states reachable through the public operations. -/
inductive Reachable (xxh3 : String → Hash) : ProgramStore → Prop
  | base : Reachable xxh3 ProgramStore.emptyStore
  | add (s : ProgramStore) (k c : String) (cats : List String) :
      Reachable xxh3 s → Reachable xxh3 (s.addProgram xxh3 k c cats)
  | remove (s : ProgramStore) (k : String) :
      Reachable xxh3 s → Reachable xxh3 (s.removeProgramByKey k).2
  | removeAll (s : ProgramStore) :
      Reachable xxh3 s → Reachable xxh3 s.removeAllPrograms
  | prep (s : ProgramStore) (q : String) (refs : List String) :
      Reachable xxh3 s → Reachable xxh3 (s.prepareQuery q refs).2

theorem storeWF_empty (xxh3 : String → Hash) : StoreWF xxh3 ProgramStore.emptyStore := by
  refine ⟨by decide, by decide, ?_, ?_, by decide, by decide, ?_, ?_⟩ <;>
    intro e he <;> exact absurd he (by simp [ProgramStore.emptyStore])

/-- The final update step of `addProgram`, specified for any intermediate
store `s3` (the state after interning and after the old program under the
target id was erased). -/
theorem storeWF_core (xxh3 : String → Hash) (s3 : ProgramStore) (hk : KeyHash)
    (k c : String) (catsH : List KeyHash)
    (h1 : (s3.programs.map Prod.fst).Nodup)
    (h2 : (s3.programs.map (fun e => e.2.pid)).Nodup)
    (h3 : ∀ e ∈ s3.programs, e.2.pid < s3.nextPid)
    (h4 : ∀ ce ∈ s3.programsByCategory, ∀ q ∈ ce.2, q < s3.nextPid)
    (h5 : (s3.programsByCategory.map Prod.fst).Nodup)
    (h6 : (s3.keyToHash.map Prod.fst).Nodup)
    (h7 : ∀ e ∈ s3.programs, e.2.hash = xxh3 e.2.content)
    (h8 : ∀ e ∈ s3.programs, ∀ ch,
      memCat s3.programsByCategory ch e.2.pid ↔ ch ∈ e.2.regCategories)
    (hnone : alookup s3.programs hk = none) :
    StoreWF xxh3
      { s3 with
          programs := aset s3.programs hk
            { pid := s3.nextPid, key := k, content := c, categories := [],
              regCategories := catsH, hash := xxh3 c },
          keyToHash := aset s3.keyToHash k hk,
          nextPid := s3.nextPid + 1,
          programsByCategory :=
            catsH.foldl (fun m ch => pushCat m ch s3.nextPid) s3.programsByCategory } := by
  have hnotmem : hk ∉ s3.programs.map Prod.fst := alookup_eq_none.mp hnone
  have hpidfresh : s3.nextPid ∉ s3.programs.map (fun e => e.2.pid) := by
    intro hcon
    rcases List.mem_map.mp hcon with ⟨e, he, hpe⟩
    exact absurd hpe (Nat.ne_of_lt (h3 e he))
  refine ⟨?_, ?_, ?_, ?_, ?_, ?_, ?_, ?_⟩
  · show ((aset s3.programs hk _).map Prod.fst).Nodup
    rw [map_fst_aset_of_absent _ hnone, List.nodup_append]
    refine ⟨h1, List.nodup_singleton hk, ?_⟩
    intro a ha hsing
    simp at hsing
    subst hsing
    exact hnotmem ha
  · show ((aset s3.programs hk _).map (fun e => e.2.pid)).Nodup
    rw [aset_of_absent _ hnone, List.map_append, List.nodup_append]
    refine ⟨h2, by simp, ?_⟩
    intro a ha hsing
    simp at hsing
    subst hsing
    exact hpidfresh ha
  · intro e he
    rcases mem_aset_cases he with hc | hc
    · subst hc
      show s3.nextPid < s3.nextPid + 1
      omega
    · have := h3 e hc
      show e.2.pid < s3.nextPid + 1
      omega
  · intro ce hce q hq
    show q < s3.nextPid + 1
    have := foldPush_pid_bound (P := fun q => q < s3.nextPid + 1) catsH s3.nextPid
      (by omega) s3.programsByCategory
      (fun ce2 hce2 q2 hq2 => by have := h4 ce2 hce2 q2 hq2; omega) ce hce q hq
    exact this
  · exact foldPush_keys_nodup catsH s3.nextPid s3.programsByCategory h5
  · exact nodup_fst_aset _ h6
  · intro e he
    rcases mem_aset_cases he with hc | hc
    · subst hc
      rfl
    · exact h7 e hc
  · intro e he ch
    rcases mem_aset_cases he with hc | hc
    · subst hc
      show memCat _ ch s3.nextPid ↔ ch ∈ catsH
      rw [memCat_foldPush]
      constructor
      · rintro (⟨pids, hp, hm⟩ | ⟨hin, _⟩)
        · exact absurd (h4 _ (alookup_mem hp) _ hm) (by omega)
        · exact hin
      · intro hin
        exact Or.inr ⟨hin, rfl⟩
    · have hne : e.2.pid ≠ s3.nextPid := Nat.ne_of_lt (h3 e hc)
      show memCat _ ch e.2.pid ↔ ch ∈ e.2.regCategories
      rw [memCat_foldPush]
      rw [← h8 e hc ch]
      constructor
      · rintro (hm | ⟨_, hp⟩)
        · exact hm
        · exact absurd hp hne
      · intro hm
        exact Or.inl hm

/-- The shape of `addProgram` with the intermediate states named. -/
theorem addProgram_eq (xxh3 : String → Hash) (s : ProgramStore) (k c : String)
    (cats : List String) :
    s.addProgram xxh3 k c cats =
      (let r1 := s.getOrCreateHash k
       let s2 : ProgramStore := { r1.2 with programs := aerase r1.2.programs r1.1 }
       let r2 := internAll s2 cats
       { r2.2 with
           programs := aset r2.2.programs r1.1
             { pid := r2.2.nextPid, key := k, content := c, categories := [],
               regCategories := r2.1, hash := xxh3 c },
           keyToHash := aset r2.2.keyToHash k r1.1,
           nextPid := r2.2.nextPid + 1,
           programsByCategory :=
             r2.1.foldl (fun m ch => pushCat m ch r2.2.nextPid)
               r2.2.programsByCategory }) := rfl

theorem storeWF_addProgram (xxh3 : String → Hash) (s : ProgramStore) (k c : String)
    (cats : List String) (wf : StoreWF xxh3 s) :
    StoreWF xxh3 (s.addProgram xxh3 k c cats) := by
  obtain ⟨gp, gb, gn, gnk, gself, gother, gk⟩ := getOrCreateHash_spec s k
  obtain ⟨ip, ib, inp, ik⟩ := internAll_state
    { (s.getOrCreateHash k).2 with
        programs := aerase (s.getOrCreateHash k).2.programs (s.getOrCreateHash k).1 } cats
  rw [addProgram_eq]
  refine storeWF_core xxh3 _ _ k c _ ?_ ?_ ?_ ?_ ?_ ?_ ?_ ?_ ?_
  · rw [ip]
    show ((aerase (s.getOrCreateHash k).2.programs (s.getOrCreateHash k).1).map
      Prod.fst).Nodup
    rw [gp]
    exact nodup_fst_aerase wf.progKeysNodup
  · rw [ip]
    show ((aerase (s.getOrCreateHash k).2.programs (s.getOrCreateHash k).1).map
      (fun e => e.2.pid)).Nodup
    rw [gp]
    exact ((aerase_sublist s.programs _).map (fun e => e.2.pid)).nodup wf.pidsNodup
  · intro e he
    rw [ip] at he
    rw [inp]
    show e.2.pid < (s.getOrCreateHash k).2.nextPid
    rw [gn]
    refine wf.pidsLt e ?_
    have hsub : (aerase (s.getOrCreateHash k).2.programs (s.getOrCreateHash k).1).Sublist
        (s.getOrCreateHash k).2.programs := aerase_sublist _ _
    rw [gp] at hsub
    exact hsub.mem (by rw [gp] at he; exact he)
  · intro ce hce q hq
    rw [ib] at hce
    rw [inp]
    show q < (s.getOrCreateHash k).2.nextPid
    rw [gn]
    have hce2 : ce ∈ s.programsByCategory := by
      have : ce ∈ (s.getOrCreateHash k).2.programsByCategory := hce
      rw [gb] at this
      exact this
    exact wf.catPidsLt ce hce2 q hq
  · rw [ib]
    show ((s.getOrCreateHash k).2.programsByCategory.map Prod.fst).Nodup
    rw [gb]
    exact wf.catKeysNodup
  · exact ik (gk wf.k2hKeysNodup)
  · intro e he
    rw [ip] at he
    have hsub : (aerase (s.getOrCreateHash k).2.programs (s.getOrCreateHash k).1).Sublist
        (s.getOrCreateHash k).2.programs := aerase_sublist _ _
    have he2 : e ∈ s.programs := by
      rw [gp] at hsub
      rw [gp] at he
      exact hsub.mem he
    exact wf.hashConsistent e he2
  · intro e he ch
    rw [ip] at he
    rw [ib]
    have hsub : (aerase (s.getOrCreateHash k).2.programs (s.getOrCreateHash k).1).Sublist
        (s.getOrCreateHash k).2.programs := aerase_sublist _ _
    have he2 : e ∈ s.programs := by
      rw [gp] at hsub
      rw [gp] at he
      exact hsub.mem he
    show memCat (s.getOrCreateHash k).2.programsByCategory ch e.2.pid ↔ _
    rw [gb]
    exact wf.catInv e he2 ch
  · rw [ip]
    show alookup (aerase (s.getOrCreateHash k).2.programs (s.getOrCreateHash k).1)
      (s.getOrCreateHash k).1 = none
    rw [gp]
    exact alookup_aerase_self wf.progKeysNodup

theorem storeWF_removeProgramByKey (xxh3 : String → Hash) (s : ProgramStore)
    (k : String) (wf : StoreWF xxh3 s) :
    StoreWF xxh3 (s.removeProgramByKey k).2 := by
  rw [ProgramStore.removeProgramByKey]
  cases hkh : alookup s.keyToHash k with
  | some h =>
      cases hprog : alookup s.programs h with
      | some p =>
          simp only
          refine ⟨?_, ?_, ?_, wf.catPidsLt, wf.catKeysNodup, wf.k2hKeysNodup, ?_, ?_⟩
          · exact nodup_fst_aerase wf.progKeysNodup
          · exact ((aerase_sublist s.programs h).map (fun e => e.2.pid)).nodup wf.pidsNodup
          · intro e he
            exact wf.pidsLt e ((aerase_sublist s.programs h).mem he)
          · intro e he
            exact wf.hashConsistent e ((aerase_sublist s.programs h).mem he)
          · intro e he ch
            exact wf.catInv e ((aerase_sublist s.programs h).mem he) ch
      | none =>
          simp only
          exact wf
  | none =>
      cases hprog : alookup s.programs 0 with
      | some p =>
          simp only
          refine ⟨?_, ?_, ?_, wf.catPidsLt, wf.catKeysNodup, nodup_fst_aset _ wf.k2hKeysNodup,
            ?_, ?_⟩
          · exact nodup_fst_aerase wf.progKeysNodup
          · exact ((aerase_sublist s.programs 0).map (fun e => e.2.pid)).nodup wf.pidsNodup
          · intro e he
            exact wf.pidsLt e ((aerase_sublist s.programs 0).mem he)
          · intro e he
            exact wf.hashConsistent e ((aerase_sublist s.programs 0).mem he)
          · intro e he ch
            exact wf.catInv e ((aerase_sublist s.programs 0).mem he) ch
      | none =>
          simp only
          exact ⟨wf.progKeysNodup, wf.pidsNodup, wf.pidsLt, wf.catPidsLt, wf.catKeysNodup,
            nodup_fst_aset _ wf.k2hKeysNodup, wf.hashConsistent, wf.catInv⟩

theorem storeWF_removeAllPrograms (xxh3 : String → Hash) (s : ProgramStore)
    (wf : StoreWF xxh3 s) : StoreWF xxh3 s.removeAllPrograms := by
  refine ⟨by simp [ProgramStore.removeAllPrograms], by simp [ProgramStore.removeAllPrograms],
    ?_, ?_, by simp [ProgramStore.removeAllPrograms], wf.k2hKeysNodup, ?_, ?_⟩ <;>
    intro e he <;> exact absurd he (by simp [ProgramStore.removeAllPrograms])

theorem storeWF_prepareQuery (xxh3 : String → Hash) (s : ProgramStore) (q : String)
    (refs : List String) (wf : StoreWF xxh3 s) :
    StoreWF xxh3 (s.prepareQuery q refs).2 := by
  have heq : (s.prepareQuery q refs).2 = (s.programByReferences refs).2 := rfl
  obtain ⟨hp, hb, hn, hk⟩ := programByReferences_state s refs
  rw [heq]
  refine ⟨?_, ?_, ?_, ?_, ?_, hk wf.k2hKeysNodup, ?_, ?_⟩
  · rw [hp]; exact wf.progKeysNodup
  · rw [hp]; exact wf.pidsNodup
  · intro e he
    rw [hp] at he
    rw [hn]
    exact wf.pidsLt e he
  · intro ce hce
    rw [hb] at hce
    rw [hn]
    exact wf.catPidsLt ce hce
  · rw [hb]; exact wf.catKeysNodup
  · intro e he
    rw [hp] at he
    exact wf.hashConsistent e he
  · intro e he ch
    rw [hp] at he
    rw [hb]
    exact wf.catInv e he ch

theorem storeWF_of_reachable {xxh3 : String → Hash} {s : ProgramStore}
    (hr : Reachable xxh3 s) : StoreWF xxh3 s := by
  induction hr with
  | base => exact storeWF_empty xxh3
  | add s k c cats _ ih => exact storeWF_addProgram xxh3 s k c cats ih
  | remove s k _ ih => exact storeWF_removeProgramByKey xxh3 s k ih
  | removeAll s _ ih => exact storeWF_removeAllPrograms xxh3 s ih
  | prep s q refs _ ih => exact storeWF_prepareQuery xxh3 s q refs ih

/-! ### Sorting lemmas -/

theorem insertByHash_perm (p : Program) (l : List Program) :
    (insertByHash p l).Perm (p :: l) := by
  induction l with
  | nil => exact List.Perm.refl _
  | cons q rest ih =>
      rw [insertByHash]
      by_cases hle : p.hash ≤ q.hash
      · rw [if_pos hle]
      · rw [if_neg hle]
        exact (List.Perm.cons q ih).trans (List.Perm.swap p q rest)

theorem sortByHash_perm (l : List Program) : (sortByHash l).Perm l := by
  induction l with
  | nil => exact List.Perm.refl _
  | cons p rest ih =>
      rw [sortByHash]
      exact (insertByHash_perm p _).trans (List.Perm.cons p ih)

theorem mem_sortByHash {p : Program} {l : List Program} :
    p ∈ sortByHash l ↔ p ∈ l :=
  (sortByHash_perm l).mem_iff

theorem insertByHash_sorted (p : Program) (l : List Program)
    (hs : l.Pairwise (fun a b => a.hash ≤ b.hash)) :
    (insertByHash p l).Pairwise (fun a b => a.hash ≤ b.hash) := by
  induction l with
  | nil => simp [insertByHash]
  | cons q rest ih =>
      rw [insertByHash]
      rcases List.pairwise_cons.mp hs with ⟨hq, hrest⟩
      by_cases hle : p.hash ≤ q.hash
      · rw [if_pos hle]
        refine List.pairwise_cons.mpr ⟨?_, hs⟩
        intro x hx
        rcases List.mem_cons.mp hx with hc | hc
        · subst hc
          exact hle
        · exact Nat.le_trans hle (hq x hc)
      · rw [if_neg hle]
        refine List.pairwise_cons.mpr ⟨?_, ih hrest⟩
        intro x hx
        rcases (insertByHash_perm p rest).mem_iff.mp hx with hc
        rcases List.mem_cons.mp hc with hd | hd
        · rw [hd]
          show q.hash ≤ p.hash
          exact Nat.le_of_not_le hle
        · exact hq x hd

theorem sortByHash_sorted (l : List Program) :
    (sortByHash l).Pairwise (fun a b => a.hash ≤ b.hash) := by
  induction l with
  | nil => simp [sortByHash]
  | cons p rest ih =>
      rw [sortByHash]
      exact insertByHash_sorted p _ ih

/-! ### Claim C2: fragment replacement -/

theorem aerase_map_ne {α β γ : Type} [DecidableEq α] {g : α × β → γ} {l : List (α × β)}
    {k : α} {v : β} (halookup : alookup l k = some v) (hnd : (l.map g).Nodup)
    {x : α × β} (hx : x ∈ aerase l k) : g x ≠ g (k, v) := by
  induction l with
  | nil => simp at hx
  | cons e rest ih =>
      obtain ⟨ek, ev⟩ := e
      rw [List.map_cons] at hnd
      rcases List.nodup_cons.mp hnd with ⟨hhead, htail⟩
      by_cases he : ek = k
      · subst he
        rw [alookup_cons, if_pos rfl] at halookup
        injection halookup with h2
        subst h2
        rw [aerase_cons, if_pos rfl] at hx
        intro hcon
        exact hhead (by
          rw [← hcon]
          exact List.mem_map.mpr ⟨x, hx, rfl⟩)
      · rw [alookup_cons, if_neg he] at halookup
        rw [aerase_cons, if_neg he] at hx
        rcases List.mem_cons.mp hx with hc | hc
        · subst hc
          intro hcon
          exact hhead (by
            rw [hcon]
            exact List.mem_map.mpr ⟨(k, v), alookup_mem halookup, rfl⟩)
        · exact ih halookup htail hc

theorem lockPid_eq_none_of_all {s : ProgramStore} {pid : Nat}
    (h : ∀ e ∈ s.programs, e.2.pid ≠ pid) : lockPid s pid = none := by
  rw [lockPid, List.find?_eq_none]
  intro x hx
  rcases List.mem_map.mp hx with ⟨e, he, hxe⟩
  subst hxe
  simp [h e he]

theorem lockPid_mem {s : ProgramStore} {pid : Nat} {p : Program}
    (h : lockPid s pid = some p) : ∃ kh, (kh, p) ∈ s.programs := by
  rw [lockPid] at h
  have hmem := List.mem_of_find?_eq_some h
  rcases List.mem_map.mp hmem with ⟨e, he, hpe⟩
  exact ⟨e.1, by rw [← hpe]; exact he⟩

theorem catFold_acc_mem (s1 : ProgramStore) (pids : List Nat) :
    ∀ (as : List Program × List Nat) (p : Program),
      p ∈ (pids.foldl
        (fun (as : List Program × List Nat) pid =>
          match lockPid s1 pid with
          | some p => if p.pid ∈ as.2 then as else (as.1 ++ [p], as.2 ++ [p.pid])
          | none => as) as).1 →
      p ∈ as.1 ∨ ∃ kh, (kh, p) ∈ s1.programs := by
  induction pids with
  | nil => intro as p hp; exact Or.inl hp
  | cons pid rest ih =>
      intro as p hp
      rw [List.foldl_cons] at hp
      cases hlock : lockPid s1 pid with
      | none =>
          simp only [hlock] at hp
          exact ih as p hp
      | some p0 =>
          simp only [hlock] at hp
          by_cases hseen : p0.pid ∈ as.2
          · rw [if_pos hseen] at hp
            exact ih as p hp
          · rw [if_neg hseen] at hp
            rcases ih _ p hp with hc | hc
            · rcases List.mem_append.mp hc with hd | hd
              · exact Or.inl hd
              · simp at hd
                subst hd
                exact Or.inr (lockPid_mem hlock)
            · exact Or.inr hc

theorem refStep_acc_mem (st : RState) (r : String) (p : Program)
    (hp : p ∈ (refStep st r).acc) :
    p ∈ st.acc ∨ ∃ kh, (kh, p) ∈ st.s.programs := by
  have gp : (st.s.getOrCreateHash r).2.programs = st.s.programs :=
    (getOrCreateHash_spec st.s r).1
  rw [refStep] at hp
  cases hprog : alookup (st.s.getOrCreateHash r).2.programs (st.s.getOrCreateHash r).1 with
  | some p0 =>
      simp only [hprog] at hp
      by_cases hseen : p0.pid ∈ st.seen
      · rw [if_pos hseen] at hp
        exact Or.inl hp
      · rw [if_neg hseen] at hp
        rcases List.mem_append.mp hp with hc | hc
        · exact Or.inl hc
        · simp at hc
          subst hc
          refine Or.inr ⟨(st.s.getOrCreateHash r).1, ?_⟩
          rw [← gp]
          exact alookup_mem hprog
  | none =>
      simp only [hprog] at hp
      cases hcat : alookup (st.s.getOrCreateHash r).2.programsByCategory
          (st.s.getOrCreateHash r).1 with
      | some pids =>
          simp only [hcat] at hp
          rcases catFold_acc_mem (st.s.getOrCreateHash r).2 pids (st.acc, st.seen) p hp
            with hc | ⟨kh, hc⟩
          · exact Or.inl hc
          · rw [gp] at hc
            exact Or.inr ⟨kh, hc⟩
      | none =>
          simp only [hcat] at hp
          exact Or.inl hp

theorem resolveFold_acc_mem (refs : List String) :
    ∀ (st : RState) (p : Program), p ∈ (refs.foldl refStep st).acc →
      p ∈ st.acc ∨ ∃ kh, (kh, p) ∈ st.s.programs := by
  induction refs with
  | nil => intro st p hp; exact Or.inl hp
  | cons r rest ih =>
      intro st p hp
      rw [List.foldl_cons] at hp
      rcases ih (refStep st r) p hp with hc | ⟨kh, hc⟩
      · rcases refStep_acc_mem st r p hc with hd | hd
        · exact Or.inl hd
        · exact Or.inr hd
      · rw [refStep_store] at hc
        rw [(getOrCreateHash_spec st.s r).1] at hc
        exact Or.inr ⟨kh, hc⟩

/-- Every fragment returned by resolution is one of the store's live
programs. -/
theorem resolved_mem {s : ProgramStore} {refs : List String} {p : Program}
    (hp : p ∈ (s.programByReferences refs).1) : ∃ kh, (kh, p) ∈ s.programs := by
  rw [ProgramStore.programByReferences] at hp
  simp only at hp
  rw [mem_sortByHash] at hp
  rcases resolveFold_acc_mem refs ⟨s, [], []⟩ p hp with hc | hc
  · simp at hc
  · exact hc

theorem addProgram_known (xxh3 : String → Hash) (s : ProgramStore) (k c : String)
    (cats : List String) (hk : KeyHash) (hkh : alookup s.keyToHash k = some hk) :
    ∃ pNew : Program,
      pNew.pid = s.nextPid ∧ pNew.hash = xxh3 c ∧ pNew.content = c ∧ pNew.key = k ∧
      (s.addProgram xxh3 k c cats).programs = aset (aerase s.programs hk) hk pNew ∧
      alookup (s.addProgram xxh3 k c cats).keyToHash k = some hk := by
  have hg : s.getOrCreateHash k = (hk, s) := by
    rw [ProgramStore.getOrCreateHash, hkh]
  obtain ⟨ip, ib, inp, ik⟩ := internAll_state
    { s with programs := aerase s.programs hk } cats
  refine ⟨Program.mk
      (internAll { s with programs := aerase s.programs hk } cats).2.nextPid
      k c []
      (internAll { s with programs := aerase s.programs hk } cats).1
      (xxh3 c), ?_, rfl, rfl, rfl, ?_, ?_⟩
  · exact inp
  · rw [addProgram_eq]
    simp only [hg]
    rw [ip]
  · rw [addProgram_eq]
    simp only [hg]
    exact alookup_aset_self _ _ _

theorem programByReferences_single_key (s : ProgramStore) (k : String) (hk : KeyHash)
    (p : Program) (hkh : alookup s.keyToHash k = some hk)
    (hp : alookup s.programs hk = some p) :
    s.programByReferences [k] = ([p], s) := by
  have hg : s.getOrCreateHash k = (hk, s) := by
    rw [ProgramStore.getOrCreateHash, hkh]
  rw [ProgramStore.programByReferences, List.foldl_cons, List.foldl_nil, refStep]
  simp only [hg, hp]
  simp [sortByHash, insertByHash]

theorem prepareQuery_single (s : ProgramStore) (k : String) (hk : KeyHash) (p : Program)
    (q : String) (hkh : alookup s.keyToHash k = some hk)
    (hp : alookup s.programs hk = some p) (hnz : p.hash ≠ 0) :
    (s.prepareQuery q [k]).1.hash = (q, [p.hash]) := by
  rw [ProgramStore.prepareQuery, programByReferences_single_key s k hk p hkh hp]
  simp [hnz]

/-- C2: (first conjunct) in every reachable store a fragment's identity sits
in exactly the category entries it was registered with; (second conjunct)
re-registering a stored key with content hashing differently replaces the
stored program with one carrying the new, different content hash, changes
the fingerprint of a query referencing that key, and kills the old
program's weak references: its identity no longer locks and it can no
longer be returned by any resolution. -/
theorem nc_C2_fragment_replacement (xxh3 : String → Hash) :
    (∀ t : ProgramStore, Reachable xxh3 t → ∀ e ∈ t.programs, ∀ ch,
      memCat t.programsByCategory ch e.2.pid ↔ ch ∈ e.2.regCategories) ∧
    (∀ (s : ProgramStore) (k c2 : String) (cats2 : List String) (hk : KeyHash)
        (pOld : Program),
      Reachable xxh3 s →
      alookup s.keyToHash k = some hk →
      alookup s.programs hk = some pOld →
      xxh3 c2 ≠ pOld.hash → pOld.hash ≠ 0 → xxh3 c2 ≠ 0 →
      (∃ pNew, alookup (s.addProgram xxh3 k c2 cats2).programs hk = some pNew ∧
        pNew.hash = xxh3 c2 ∧ pNew.hash ≠ pOld.hash) ∧
      (∀ q, ((s.addProgram xxh3 k c2 cats2).prepareQuery q [k]).1.hash ≠
        (s.prepareQuery q [k]).1.hash) ∧
      lockPid (s.addProgram xxh3 k c2 cats2) pOld.pid = none ∧
      (∀ refs, pOld ∉ ((s.addProgram xxh3 k c2 cats2).programByReferences refs).1)) := by
  constructor
  · intro t hr e he ch
    exact (storeWF_of_reachable hr).catInv e he ch
  · intro s k c2 cats2 hk pOld hr hkh hp hneq hnz1 hnz2
    have wf : StoreWF xxh3 s := storeWF_of_reachable hr
    obtain ⟨pNew, hpid, hhash, hcontent, hkey, hprogs, hk2h⟩ :=
      addProgram_known xxh3 s k c2 cats2 hk hkh
    have hlookupNew : alookup (s.addProgram xxh3 k c2 cats2).programs hk = some pNew := by
      rw [hprogs]
      exact alookup_aset_self _ _ _
    have hOldMem : (hk, pOld) ∈ s.programs := alookup_mem hp
    have hOldLt : pOld.pid < s.nextPid := wf.pidsLt (hk, pOld) hOldMem
    have hallne : ∀ e ∈ (s.addProgram xxh3 k c2 cats2).programs, e.2.pid ≠ pOld.pid := by
      intro e he
      rw [hprogs] at he
      rcases mem_aset_cases he with hc | hc
      · subst hc
        show pNew.pid ≠ pOld.pid
        rw [hpid]
        omega
      · have := aerase_map_ne (g := fun e => e.2.pid) hp wf.pidsNodup hc
        exact this
    refine ⟨⟨pNew, hlookupNew, hhash, by rw [hhash]; exact hneq⟩, ?_, ?_, ?_⟩
    · intro q
      rw [prepareQuery_single s k hk pOld q hkh hp hnz1,
        prepareQuery_single _ k hk pNew q hk2h hlookupNew (by rw [hhash]; exact hnz2)]
      intro hcon
      injection hcon with hq hlist
      injection hlist with hhead _
      rw [hhash] at hhead
      exact hneq hhead
    · exact lockPid_eq_none_of_all hallne
    · intro refs hcon
      rcases resolved_mem hcon with ⟨kh, hmem⟩
      exact hallne (kh, pOld) hmem rfl

theorem nc_C2_witness :
    Reachable sampleHash (ProgramStore.emptyStore.addProgram sampleHash "k1" "p" ["c"]) ∧
    alookup (ProgramStore.emptyStore.addProgram sampleHash "k1" "p" ["c"]).keyToHash "k1"
      = some 0 ∧
    (∃ pNew,
      alookup ((ProgramStore.emptyStore.addProgram sampleHash "k1" "p"
          ["c"]).addProgram sampleHash "k1" "newcontent" []).programs 0 = some pNew ∧
      pNew.hash = sampleHash "newcontent" ∧
      pNew.hash ≠ (Program.mk 0 "k1" "p" [] [1] 101).hash) := by
  have hreach : Reachable sampleHash
      (ProgramStore.emptyStore.addProgram sampleHash "k1" "p" ["c"]) :=
    Reachable.add ProgramStore.emptyStore "k1" "p" ["c"] Reachable.base
  refine ⟨hreach, by decide, ?_⟩
  exact ((nc_C2_fragment_replacement sampleHash).2
    (ProgramStore.emptyStore.addProgram sampleHash "k1" "p" ["c"])
    "k1" "newcontent" [] 0
    (Program.mk 0 "k1" "p" [] [1] 101)
    hreach (by decide) (by decide) (by decide) (by decide) (by decide)).1

/-! ### Resolution characterization

The per-reference match set and the invariant of the resolution fold, used
to settle the fingerprint-order-independence and resolution-semantics
claims.  `matchOf s h` is what a single reference interned to id `h`
contributes before de-duplication: the directly stored program if one
exists, otherwise the lockable members of the category entry. -/

def matchOf (s : ProgramStore) (h : KeyHash) : List Program :=
  match alookup s.programs h with
  | some p => [p]
  | none =>
      match alookup s.programsByCategory h with
      | some pids => pids.filterMap (lockPid s)
      | none => []

theorem lockPid_congr {s t : ProgramStore} (hp : s.programs = t.programs) :
    lockPid s = lockPid t := by
  funext pid
  rw [lockPid, lockPid, hp]

theorem matchOf_congr {s t : ProgramStore} (hp : s.programs = t.programs)
    (hb : s.programsByCategory = t.programsByCategory) :
    matchOf s = matchOf t := by
  funext h
  rw [matchOf, matchOf, hp, hb, lockPid_congr hp]

theorem matchOf_mem {s : ProgramStore} {h : KeyHash} {p : Program}
    (hp : p ∈ matchOf s h) : ∃ kh, (kh, p) ∈ s.programs := by
  rw [matchOf] at hp
  cases hprog : alookup s.programs h with
  | some p0 =>
      rw [hprog] at hp
      simp at hp
      subst hp
      exact ⟨h, alookup_mem hprog⟩
  | none =>
      rw [hprog] at hp
      cases hcat : alookup s.programsByCategory h with
      | some pids =>
          rw [hcat] at hp
          rcases List.mem_filterMap.mp hp with ⟨pid, _, hlock⟩
          exact lockPid_mem hlock
      | none =>
          rw [hcat] at hp
          simp at hp

/-- The category fold of `refStep`, rewritten as a de-duplicating fold over
the list of lockable programs. -/
theorem catFold_eq_dfold (s1 : ProgramStore) (pids : List Nat)
    (as : List Program × List Nat) :
    pids.foldl
      (fun (as : List Program × List Nat) pid =>
        match lockPid s1 pid with
        | some p => if p.pid ∈ as.2 then as else (as.1 ++ [p], as.2 ++ [p.pid])
        | none => as) as =
    (pids.filterMap (lockPid s1)).foldl
      (fun (as : List Program × List Nat) p =>
        if p.pid ∈ as.2 then as else (as.1 ++ [p], as.2 ++ [p.pid])) as := by
  induction pids generalizing as with
  | nil => rfl
  | cons pid rest ih =>
      rw [List.foldl_cons]
      cases hlock : lockPid s1 pid with
      | none =>
          rw [List.filterMap_cons_none hlock]
          exact ih as
      | some p =>
          rw [List.filterMap_cons_some hlock, List.foldl_cons]
          exact ih _

/-- One resolution step de-duplicates and appends exactly the match set of
the interned reference. -/
theorem refStep_acc_eq (st : RState) (r : String) :
    ((refStep st r).acc, (refStep st r).seen) =
      (matchOf (st.s.getOrCreateHash r).2 (st.s.getOrCreateHash r).1).foldl
        (fun (as : List Program × List Nat) p =>
          if p.pid ∈ as.2 then as else (as.1 ++ [p], as.2 ++ [p.pid]))
        (st.acc, st.seen) := by
  rw [refStep, matchOf]
  cases hprog : alookup (st.s.getOrCreateHash r).2.programs (st.s.getOrCreateHash r).1 with
  | some p =>
      rw [List.foldl_cons, List.foldl_nil]
      by_cases hseen : p.pid ∈ st.seen
      · rw [if_pos hseen]
        simp [hseen]
      · rw [if_neg hseen]
        simp [hseen]
  | none =>
      cases hcat : alookup (st.s.getOrCreateHash r).2.programsByCategory
          (st.s.getOrCreateHash r).1 with
      | some pids =>
          simp only
          rw [catFold_eq_dfold]
      | none =>
          simp

/-- Specification of the de-duplicating fold: the seen set stays the pid
image of the collected list, stays duplicate-free, and the collected list's
membership is the union of the previous membership and the candidates —
provided a pid determines a program across the candidates and the
accumulator. -/
theorem dfold_spec (cand : List Program) :
    ∀ (acc : List Program) (seen : List Nat),
      seen = acc.map Program.pid →
      (∀ p ∈ cand, ∀ q ∈ acc, q.pid = p.pid → q = p) →
      (∀ p ∈ cand, ∀ q ∈ cand, q.pid = p.pid → q = p) →
      ((cand.foldl
          (fun (as : List Program × List Nat) p =>
            if p.pid ∈ as.2 then as else (as.1 ++ [p], as.2 ++ [p.pid]))
          (acc, seen)).2 =
        ((cand.foldl
          (fun (as : List Program × List Nat) p =>
            if p.pid ∈ as.2 then as else (as.1 ++ [p], as.2 ++ [p.pid]))
          (acc, seen)).1).map Program.pid) ∧
      (seen.Nodup →
        ((cand.foldl
          (fun (as : List Program × List Nat) p =>
            if p.pid ∈ as.2 then as else (as.1 ++ [p], as.2 ++ [p.pid]))
          (acc, seen)).2).Nodup) ∧
      (∀ x, x ∈ (cand.foldl
          (fun (as : List Program × List Nat) p =>
            if p.pid ∈ as.2 then as else (as.1 ++ [p], as.2 ++ [p.pid]))
          (acc, seen)).1 ↔ x ∈ acc ∨ x ∈ cand) := by
  induction cand with
  | nil =>
      intro acc seen hseen _ _
      refine ⟨hseen, fun hnd => hnd, ?_⟩
      intro x
      simp
  | cons p rest ih =>
      intro acc seen hseen hinj1 hinj2
      rw [List.foldl_cons]
      by_cases hmem : p.pid ∈ seen
      · rw [if_pos hmem]
        have hpacc : p ∈ acc := by
          rw [hseen] at hmem
          rcases List.mem_map.mp hmem with ⟨q, hq, hqe⟩
          have := hinj1 p (List.mem_cons_self _ _) q hq hqe
          rw [← this]
          exact hq
        obtain ⟨h1, h2, h3⟩ := ih acc seen hseen
          (fun x hx q hq he => hinj1 x (List.mem_cons_of_mem _ hx) q hq he)
          (fun x hx q hq he =>
            hinj2 x (List.mem_cons_of_mem _ hx) q (List.mem_cons_of_mem _ hq) he)
        refine ⟨h1, h2, ?_⟩
        intro x
        rw [h3]
        constructor
        · rintro (hc | hc)
          · exact Or.inl hc
          · exact Or.inr (List.mem_cons_of_mem _ hc)
        · rintro (hc | hc)
          · exact Or.inl hc
          · rcases List.mem_cons.mp hc with hd | hd
            · subst hd
              exact Or.inl hpacc
            · exact Or.inr hd
      · rw [if_neg hmem]
        have hseen2 : seen ++ [p.pid] = (acc ++ [p]).map Program.pid := by
          rw [List.map_append, hseen]
          rfl
        have hinj1b : ∀ x ∈ rest, ∀ q ∈ acc ++ [p], q.pid = x.pid → q = x := by
          intro x hx q hq he
          rcases List.mem_append.mp hq with hc | hc
          · exact hinj1 x (List.mem_cons_of_mem _ hx) q hc he
          · simp at hc
            subst hc
            exact hinj2 x (List.mem_cons_of_mem _ hx) q (List.mem_cons_self _ _) he
        obtain ⟨h1, h2, h3⟩ := ih (acc ++ [p]) (seen ++ [p.pid]) hseen2 hinj1b
          (fun x hx q hq he =>
            hinj2 x (List.mem_cons_of_mem _ hx) q (List.mem_cons_of_mem _ hq) he)
        refine ⟨h1, ?_, ?_⟩
        · intro hnd
          refine h2 ?_
          rw [List.nodup_append]
          exact ⟨hnd, List.nodup_singleton _, by
            intro a ha hb
            simp at hb
            subst hb
            exact hmem ha⟩
        · intro x
          rw [h3]
          constructor
          · rintro (hc | hc)
            · rcases List.mem_append.mp hc with hd | hd
              · exact Or.inl hd
              · simp at hd
                subst hd
                exact Or.inr (List.mem_cons_self _ _)
            · exact Or.inr (List.mem_cons_of_mem _ hc)
          · rintro (hc | hc)
            · exact Or.inl (List.mem_append_left _ hc)
            · rcases List.mem_cons.mp hc with hd | hd
              · subst hd
                exact Or.inl (List.mem_append_right _ (by simp))
              · exact Or.inr hd

/-- The number of distinct reference strings in `l` that are not interned in
`σ0`; resolution advances the id counter by exactly this amount. -/
def newCount (σ0 : ProgramStore) (l : List String) : Nat :=
  ((l.filter (fun r => (alookup σ0.keyToHash r).isNone)).toFinset).card

theorem newCount_append_not_new (σ0 : ProgramStore) (l : List String) {r : String}
    {h : KeyHash} (hr : alookup σ0.keyToHash r = some h) :
    newCount σ0 (l ++ [r]) = newCount σ0 l := by
  rw [newCount, newCount, List.filter_append]
  have : List.filter (fun r => (alookup σ0.keyToHash r).isNone) [r] = [] := by
    simp [List.filter, hr]
  rw [this, List.append_nil]

theorem newCount_append_mem (σ0 : ProgramStore) (l : List String) {r : String}
    (hr : alookup σ0.keyToHash r = none) (hmem : r ∈ l) :
    newCount σ0 (l ++ [r]) = newCount σ0 l := by
  rw [newCount, newCount]
  congr 1
  apply List.toFinset.ext
  intro x
  rw [List.filter_append]
  simp only [List.mem_append, List.mem_filter]
  constructor
  · rintro (hc | hc)
    · exact hc
    · simp [List.filter, hr] at hc
      obtain ⟨hc1, hc2⟩ := hc
      subst hc1
      exact ⟨hmem, by simp [hr]⟩
  · intro hc
    exact Or.inl hc

theorem newCount_append_new (σ0 : ProgramStore) (l : List String) {r : String}
    (hr : alookup σ0.keyToHash r = none) (hmem : r ∉ l) :
    newCount σ0 (l ++ [r]) = newCount σ0 l + 1 := by
  rw [newCount, newCount, List.filter_append]
  have hfr : List.filter (fun r => (alookup σ0.keyToHash r).isNone) [r] = [r] := by
    simp [List.filter, hr]
  rw [hfr]
  have hins : (List.filter (fun r => (alookup σ0.keyToHash r).isNone) l ++ [r]).toFinset =
      insert r (List.filter (fun r => (alookup σ0.keyToHash r).isNone) l).toFinset := by
    apply Finset.ext
    intro x
    simp only [List.mem_toFinset, List.mem_append, Finset.mem_insert]
    constructor
    · rintro (hc | hc)
      · exact Or.inr hc
      · simp at hc
        exact Or.inl hc
    · rintro (hc | hc)
      · exact Or.inr (by simp [hc])
      · exact Or.inl hc
  rw [hins]
  refine Finset.card_insert_of_not_mem ?_
  intro hc
  rw [List.mem_toFinset, List.mem_filter] at hc
  exact hmem hc.1

theorem newCount_perm (σ0 : ProgramStore) {l1 l2 : List String} (h : l1.Perm l2) :
    newCount σ0 l1 = newCount σ0 l2 := by
  rw [newCount, newCount]
  congr 1
  exact List.toFinset_eq_of_perm _ _ (h.filter _)

/-- A program identity determines the program among the store's values. -/
def PidInj (σ0 : ProgramStore) : Prop :=
  ∀ x ∈ σ0.programs, ∀ y ∈ σ0.programs, x.2.pid = y.2.pid → x.2 = y.2

theorem pidInj_of_wf {xxh3 : String → Hash} {s : ProgramStore} (wf : StoreWF xxh3 s) :
    PidInj s := by
  intro x hx y hy he
  have := List.inj_on_of_nodup_map wf.pidsNodup hx hy he
  rw [this]

theorem getOrCreateHash_known {s : ProgramStore} {r : String} {h0 : KeyHash}
    (hl : alookup s.keyToHash r = some h0) : s.getOrCreateHash r = (h0, s) := by
  rw [ProgramStore.getOrCreateHash, hl]

theorem getOrCreateHash_unknown {s : ProgramStore} {r : String}
    (hl : alookup s.keyToHash r = none) :
    s.getOrCreateHash r = (s.nextKey,
      { s with keyToHash := aset s.keyToHash r s.nextKey, nextKey := s.nextKey + 1 }) := by
  rw [ProgramStore.getOrCreateHash, hl]

/-- The invariant of the resolution fold, relative to the store `σ0` the
resolution started from: the program map, category index and allocation
counter are untouched; the interning table only grows, with fresh ids in
the interval the id counter moved through; the id counter advances by the
number of distinct new strings processed; the seen set is the pid image of
the duplicate-free collected list; and the collected list contains exactly
the matches of the already-interned references plus the matches of the
freshly interned ids. -/
structure RInv (σ0 : ProgramStore) (processed : List String) (st : RState) : Prop where
  progsEq : st.s.programs = σ0.programs
  pbcEq : st.s.programsByCategory = σ0.programsByCategory
  nkGe : σ0.nextKey ≤ st.s.nextKey
  k2hOld : ∀ r h, alookup σ0.keyToHash r = some h → alookup st.s.keyToHash r = some h
  k2hNew : ∀ r h, alookup st.s.keyToHash r = some h →
      alookup σ0.keyToHash r = some h ∨
      (σ0.nextKey ≤ h ∧ h < st.s.nextKey ∧ r ∈ processed)
  k2hCover : ∀ r ∈ processed, (alookup st.s.keyToHash r).isSome = true
  nkEq : st.s.nextKey = σ0.nextKey + newCount σ0 processed
  seenEq : st.seen = st.acc.map Program.pid
  seenNodup : st.seen.Nodup
  accMem : ∀ p, p ∈ st.acc ↔
      (∃ r ∈ processed, ∃ h, alookup σ0.keyToHash r = some h ∧ p ∈ matchOf σ0 h) ∨
      (∃ f, σ0.nextKey ≤ f ∧ f < st.s.nextKey ∧ p ∈ matchOf σ0 f)

theorem RInv_base (σ0 : ProgramStore) : RInv σ0 [] ⟨σ0, [], []⟩ := by
  refine ⟨rfl, rfl, Nat.le_refl _, fun r h hl => hl, fun r h hl => Or.inl hl,
    by simp, by simp [newCount], rfl, List.nodup_nil, ?_⟩
  intro p
  constructor
  · intro hp
    simp at hp
  · rintro (⟨r, hr, _⟩ | ⟨f, h1, h2, _⟩)
    · simp at hr
    · have h2b : f < σ0.nextKey := h2
      omega

theorem RInv_step (σ0 : ProgramStore) (hpi : PidInj σ0) (processed : List String)
    (st : RState) (r : String) (hinv : RInv σ0 processed st) :
    RInv σ0 (processed ++ [r]) (refStep st r) := by
  obtain ⟨gp, gb, gn, gnk, gself, gother, gk⟩ := getOrCreateHash_spec st.s r
  have hs1p : (st.s.getOrCreateHash r).2.programs = σ0.programs := by
    rw [gp, hinv.progsEq]
  have hs1b : (st.s.getOrCreateHash r).2.programsByCategory = σ0.programsByCategory := by
    rw [gb, hinv.pbcEq]
  have hmc : matchOf (st.s.getOrCreateHash r).2 = matchOf σ0 := matchOf_congr hs1p hs1b
  have haccseen := refStep_acc_eq st r
  rw [hmc] at haccseen
  have haccsub : ∀ p ∈ st.acc, ∃ kh, (kh, p) ∈ σ0.programs := by
    intro p hp
    rcases (hinv.accMem p).mp hp with ⟨r', hr', h', hh', hm⟩ | ⟨f, hf1, hf2, hm⟩ <;>
      exact matchOf_mem hm
  have hinj1 : ∀ p ∈ matchOf σ0 (st.s.getOrCreateHash r).1, ∀ q ∈ st.acc,
      q.pid = p.pid → q = p := by
    intro p hp q hq he
    rcases matchOf_mem hp with ⟨k1, hk1⟩
    rcases haccsub q hq with ⟨k2, hk2⟩
    exact hpi (k2, q) hk2 (k1, p) hk1 he
  have hinj2 : ∀ p ∈ matchOf σ0 (st.s.getOrCreateHash r).1,
      ∀ q ∈ matchOf σ0 (st.s.getOrCreateHash r).1, q.pid = p.pid → q = p := by
    intro p hp q hq he
    rcases matchOf_mem hp with ⟨k1, hk1⟩
    rcases matchOf_mem hq with ⟨k2, hk2⟩
    exact hpi (k2, q) hk2 (k1, p) hk1 he
  obtain ⟨hd1, hd2, hd3⟩ := dfold_spec (matchOf σ0 (st.s.getOrCreateHash r).1)
    st.acc st.seen hinv.seenEq hinj1 hinj2
  have hacc := congrArg Prod.fst haccseen
  have hseen := congrArg Prod.snd haccseen
  dsimp only at hacc hseen
  have hSeenEqF : (refStep st r).seen = (refStep st r).acc.map Program.pid := by
    rw [hseen, hacc]
    exact hd1
  have hSeenNodupF : (refStep st r).seen.Nodup := by
    rw [hseen]
    exact hd2 hinv.seenNodup
  have hAccMemF : ∀ p, p ∈ (refStep st r).acc ↔
      p ∈ st.acc ∨ p ∈ matchOf σ0 (st.s.getOrCreateHash r).1 := by
    intro p
    rw [hacc]
    exact hd3 p
  cases halookup : alookup st.s.keyToHash r with
  | some h0 =>
      have hgeq : st.s.getOrCreateHash r = (h0, st.s) := getOrCreateHash_known halookup
      have hcand1 : (st.s.getOrCreateHash r).1 = h0 := by rw [hgeq]
      have hsS : (refStep st r).s = st.s := by rw [refStep_store, hgeq]
      refine ⟨?_, ?_, ?_, ?_, ?_, ?_, ?_, hSeenEqF, hSeenNodupF, ?_⟩
      · rw [hsS]; exact hinv.progsEq
      · rw [hsS]; exact hinv.pbcEq
      · rw [hsS]; exact hinv.nkGe
      · intro r' h' hl
        rw [hsS]
        exact hinv.k2hOld r' h' hl
      · intro r' h' hl
        rw [hsS] at hl ⊢
        rcases hinv.k2hNew r' h' hl with hc | ⟨a, b, c⟩
        · exact Or.inl hc
        · exact Or.inr ⟨a, b, List.mem_append_left _ c⟩
      · intro r' hr'
        rw [hsS]
        rcases List.mem_append.mp hr' with hc | hc
        · exact hinv.k2hCover r' hc
        · simp at hc
          subst hc
          rw [halookup]
          rfl
      · rw [hsS]
        cases hσ : alookup σ0.keyToHash r with
        | some h1 => rw [newCount_append_not_new σ0 processed hσ]; exact hinv.nkEq
        | none =>
            rcases hinv.k2hNew r h0 halookup with hc | ⟨_, _, hcp⟩
            · rw [hσ] at hc
              cases hc
            · rw [newCount_append_mem σ0 processed hσ hcp]
              exact hinv.nkEq
      · intro p
        rw [hAccMemF p, hinv.accMem p, hcand1, hsS]
        cases hσ : alookup σ0.keyToHash r with
        | some h1 =>
            have h10 : h1 = h0 := by
              have hx := hinv.k2hOld r h1 hσ
              rw [halookup] at hx
              injection hx with hh
              exact hh.symm
            subst h10
            constructor
            · rintro ((⟨r', hr', hK⟩ | hI) | hc)
              · exact Or.inl ⟨r', List.mem_append_left _ hr', hK⟩
              · exact Or.inr hI
              · exact Or.inl ⟨r, List.mem_append_right _ (by simp), h1, hσ, hc⟩
            · rintro (⟨r', hr', h', hh', hm⟩ | hI)
              · rcases List.mem_append.mp hr' with hc | hc
                · exact Or.inl (Or.inl ⟨r', hc, h', hh', hm⟩)
                · simp at hc
                  subst hc
                  rw [hσ] at hh'
                  injection hh' with hh2
                  subst hh2
                  exact Or.inr hm
              · exact Or.inl (Or.inr hI)
        | none =>
            have hint : σ0.nextKey ≤ h0 ∧ h0 < st.s.nextKey := by
              rcases hinv.k2hNew r h0 halookup with hc | ⟨a, b, _⟩
              · rw [hσ] at hc
                cases hc
              · exact ⟨a, b⟩
            constructor
            · rintro ((⟨r', hr', hK⟩ | hI) | hc)
              · exact Or.inl ⟨r', List.mem_append_left _ hr', hK⟩
              · exact Or.inr hI
              · exact Or.inr ⟨h0, hint.1, hint.2, hc⟩
            · rintro (⟨r', hr', h', hh', hm⟩ | hI)
              · rcases List.mem_append.mp hr' with hc | hc
                · exact Or.inl (Or.inl ⟨r', hc, h', hh', hm⟩)
                · simp at hc
                  subst hc
                  rw [hσ] at hh'
                  cases hh'
              · exact Or.inl (Or.inr hI)
  | none =>
      have hgeq := getOrCreateHash_unknown halookup
      have hcand1 : (st.s.getOrCreateHash r).1 = st.s.nextKey := by rw [hgeq]
      have hsS : (refStep st r).s = { st.s with keyToHash := aset st.s.keyToHash r st.s.nextKey, nextKey := st.s.nextKey + 1 } := by
        rw [refStep_store, hgeq]
      have hnk2 : (refStep st r).s.nextKey = st.s.nextKey + 1 := by rw [hsS]
      have hk2h2 : (refStep st r).s.keyToHash = aset st.s.keyToHash r st.s.nextKey := by
        rw [hsS]
      have hσ : alookup σ0.keyToHash r = none := by
        cases hσ0 : alookup σ0.keyToHash r with
        | none => rfl
        | some h1 =>
            have := hinv.k2hOld r h1 hσ0
            rw [halookup] at this
            cases this
      have hrnp : r ∉ processed := by
        intro hc
        have := hinv.k2hCover r hc
        rw [halookup] at this
        simp at this
      refine ⟨?_, ?_, ?_, ?_, ?_, ?_, ?_, hSeenEqF, hSeenNodupF, ?_⟩
      · rw [hsS]
        exact hinv.progsEq
      · rw [hsS]
        exact hinv.pbcEq
      · rw [hnk2]
        have := hinv.nkGe
        omega
      · intro r' h' hl
        rw [hk2h2]
        have hne : r' ≠ r := by
          intro hc
          subst hc
          rw [hσ] at hl
          cases hl
        rw [alookup_aset_of_ne _ _ _ _ hne]
        exact hinv.k2hOld r' h' hl
      · intro r' h' hl
        rw [hk2h2] at hl
        by_cases hne : r' = r
        · rw [hne, alookup_aset_self] at hl
          injection hl with hl2
          refine Or.inr ⟨?_, ?_, ?_⟩
          · rw [← hl2]
            exact hinv.nkGe
          · rw [← hl2, hnk2]
            exact Nat.lt_succ_self _
          · rw [hne]
            exact List.mem_append_right _ (by simp)
        · rw [alookup_aset_of_ne _ _ _ _ hne] at hl
          rcases hinv.k2hNew r' h' hl with hc | ⟨a, b, c⟩
          · exact Or.inl hc
          · refine Or.inr ⟨a, ?_, List.mem_append_left _ c⟩
            rw [hnk2]
            exact Nat.lt_succ_of_lt b
      · intro r' hr'
        rw [hk2h2]
        rcases List.mem_append.mp hr' with hc | hc
        · have hne : r' ≠ r := fun hcc => hrnp (hcc ▸ hc)
          rw [alookup_aset_of_ne _ _ _ _ hne]
          exact hinv.k2hCover r' hc
        · simp at hc
          subst hc
          rw [alookup_aset_self]
          rfl
      · rw [hnk2, newCount_append_new σ0 processed hσ hrnp, hinv.nkEq]
        omega
      · intro p
        rw [hAccMemF p, hinv.accMem p, hcand1, hnk2]
        constructor
        · rintro ((⟨r', hr', hK⟩ | ⟨f, hf1, hf2, hm⟩) | hc)
          · exact Or.inl ⟨r', List.mem_append_left _ hr', hK⟩
          · exact Or.inr ⟨f, hf1, by omega, hm⟩
          · exact Or.inr ⟨st.s.nextKey, hinv.nkGe, by omega, hc⟩
        · rintro (⟨r', hr', h', hh', hm⟩ | ⟨f, hf1, hf2, hm⟩)
          · rcases List.mem_append.mp hr' with hc | hc
            · exact Or.inl (Or.inl ⟨r', hc, h', hh', hm⟩)
            · simp at hc
              subst hc
              rw [hσ] at hh'
              cases hh'
          · by_cases hf : f = st.s.nextKey
            · subst hf
              exact Or.inr hm
            · exact Or.inl (Or.inr ⟨f, hf1, by omega, hm⟩)

theorem RInv_fold (σ0 : ProgramStore) (hpi : PidInj σ0) (refs : List String) :
    ∀ (processed : List String) (st : RState), RInv σ0 processed st →
      RInv σ0 (processed ++ refs) (refs.foldl refStep st) := by
  induction refs with
  | nil =>
      intro processed st hinv
      rw [List.append_nil]
      exact hinv
  | cons r rest ih =>
      intro processed st hinv
      rw [List.foldl_cons]
      have h1 := ih (processed ++ [r]) (refStep st r) (RInv_step σ0 hpi processed st r hinv)
      rw [List.append_assoc] at h1
      simpa using h1

/-- The invariant at the end of a full resolution run. -/
theorem RInv_final (σ0 : ProgramStore) (hpi : PidInj σ0) (refs : List String) :
    RInv σ0 refs (refs.foldl refStep ⟨σ0, [], []⟩) := by
  have := RInv_fold σ0 hpi refs [] ⟨σ0, [], []⟩ (RInv_base σ0)
  simpa using this

/-! ### Claim C1: fingerprint order-independence -/

theorem hashFold_eq (l : List Program) (init : List Hash) :
    l.foldl (fun hs p => if p.hash ≠ 0 then hs ++ [p.hash] else hs) init =
      init ++ (l.map Program.hash).filter (fun h => h ≠ 0) := by
  induction l generalizing init with
  | nil => simp
  | cons p rest ih =>
      rw [List.foldl_cons, ih]
      by_cases hp : p.hash ≠ 0
      · rw [if_pos hp]
        simp [List.filter_cons, hp]
      · rw [if_neg hp]
        simp only [ne_eq, not_not] at hp
        simp [List.filter_cons, hp]

/-- The fingerprint stream produced by `prepareQuery`: the query text paired
with the non-zero content hashes of the resolved fragments in resolved order
(the synthetic `__program__` part has content hash 0 and is skipped). -/
theorem prepareQuery_hash (s : ProgramStore) (q : String) (refs : List String) :
    (s.prepareQuery q refs).1.hash =
      (q, ((s.programByReferences refs).1.map Program.hash).filter (fun h => h ≠ 0)) := by
  simp only [ProgramStore.prepareQuery]
  rw [hashFold_eq]
  simp [List.filter_append]

theorem programByReferences_fst (s : ProgramStore) (refs : List String) :
    (s.programByReferences refs).1 = sortByHash (refs.foldl refStep ⟨s, [], []⟩).acc := rfl

/-- The resolved fragment list is sorted by content hash. -/
theorem programByReferences_sorted (s : ProgramStore) (refs : List String) :
    ((s.programByReferences refs).1).Pairwise (fun a b => a.hash ≤ b.hash) := by
  rw [programByReferences_fst]
  exact sortByHash_sorted _

/-- Two resolutions that return the same fragments up to order produce equal
hash streams: both lists are sorted by content hash, and a permutation
between sorted lists is an equality. -/
theorem resolvedHashes_eq {s₁ s₂ : ProgramStore} {r₁ r₂ : List String}
    (hperm : ((s₁.programByReferences r₁).1).Perm ((s₂.programByReferences r₂).1)) :
    (s₁.programByReferences r₁).1.map Program.hash =
      (s₂.programByReferences r₂).1.map Program.hash := by
  have hmp := hperm.map Program.hash
  have hs₁ : List.Sorted (· ≤ ·) ((s₁.programByReferences r₁).1.map Program.hash) :=
    List.Pairwise.map _ (fun a b h => h) (programByReferences_sorted s₁ r₁)
  have hs₂ : List.Sorted (· ≤ ·) ((s₂.programByReferences r₂).1.map Program.hash) :=
    List.Pairwise.map _ (fun a b h => h) (programByReferences_sorted s₂ r₂)
  exact List.eq_of_perm_of_sorted hmp hs₁ hs₂

/-- C1: fingerprint order-independence.  (a) For every query text, any two
stores and reference lists whose resolutions return the same fragments up to
order yield an identical fingerprint stream, so the fingerprint is a pure
function of the query text and the resolved fragment contents, independent
of reference order and store insertion order; (b) on every store reachable
through the public operations, permuting the reference list itself resolves
to the same fragments and hence yields an identical fingerprint. -/
theorem nc_C1_fingerprint_order_independence (xxh3 : String → Hash) (q : String) :
    (∀ (s₁ s₂ : ProgramStore) (r₁ r₂ : List String),
        ((s₁.programByReferences r₁).1).Perm ((s₂.programByReferences r₂).1) →
        (s₁.prepareQuery q r₁).1.hash = (s₂.prepareQuery q r₂).1.hash) ∧
    (∀ (s : ProgramStore), Reachable xxh3 s →
        ∀ (r₁ r₂ : List String), r₁.Perm r₂ →
          (s.prepareQuery q r₁).1.hash = (s.prepareQuery q r₂).1.hash) := by
  have partA : ∀ (s₁ s₂ : ProgramStore) (r₁ r₂ : List String),
      ((s₁.programByReferences r₁).1).Perm ((s₂.programByReferences r₂).1) →
      (s₁.prepareQuery q r₁).1.hash = (s₂.prepareQuery q r₂).1.hash := by
    intro s₁ s₂ r₁ r₂ hperm
    rw [prepareQuery_hash, prepareQuery_hash, resolvedHashes_eq hperm]
  refine ⟨partA, ?_⟩
  intro s hreach r₁ r₂ hp
  have hpi : PidInj s := pidInj_of_wf (storeWF_of_reachable hreach)
  have h1 := RInv_final s hpi r₁
  have h2 := RInv_final s hpi r₂
  have hnk : (r₁.foldl refStep ⟨s, [], []⟩).s.nextKey
      = (r₂.foldl refStep ⟨s, [], []⟩).s.nextKey := by
    rw [h1.nkEq, h2.nkEq, newCount_perm s hp]
  have hmem : ∀ p, p ∈ (r₁.foldl refStep ⟨s, [], []⟩).acc ↔
      p ∈ (r₂.foldl refStep ⟨s, [], []⟩).acc := by
    intro p
    rw [h1.accMem p, h2.accMem p]
    constructor
    · rintro (⟨r, hr, h, hh, hm⟩ | ⟨f, hf1, hf2, hm⟩)
      · exact Or.inl ⟨r, hp.mem_iff.mp hr, h, hh, hm⟩
      · refine Or.inr ⟨f, hf1, ?_, hm⟩
        rw [← hnk]
        exact hf2
    · rintro (⟨r, hr, h, hh, hm⟩ | ⟨f, hf1, hf2, hm⟩)
      · exact Or.inl ⟨r, hp.mem_iff.mpr hr, h, hh, hm⟩
      · refine Or.inr ⟨f, hf1, ?_, hm⟩
        rw [hnk]
        exact hf2
  have hnd1 : (r₁.foldl refStep ⟨s, [], []⟩).acc.Nodup :=
    List.Nodup.of_map _ (h1.seenEq ▸ h1.seenNodup)
  have hnd2 : (r₂.foldl refStep ⟨s, [], []⟩).acc.Nodup :=
    List.Nodup.of_map _ (h2.seenEq ▸ h2.seenNodup)
  have haccperm := (List.perm_ext_iff_of_nodup hnd1 hnd2).mpr hmem
  refine partA s s r₁ r₂ ?_
  rw [programByReferences_fst, programByReferences_fst]
  exact (sortByHash_perm _).trans (haccperm.trans (sortByHash_perm _).symm)

/-- C1 witness: in the concrete two-fragment store, swapping the reference
order leaves the fingerprint unchanged. -/
theorem nc_C1_witness :
    (((ProgramStore.emptyStore.addProgram sampleHash "a" "ca" []).addProgram
        sampleHash "b" "cb" []).prepareQuery "q" ["a", "b"]).1.hash =
    (((ProgramStore.emptyStore.addProgram sampleHash "a" "ca" []).addProgram
        sampleHash "b" "cb" []).prepareQuery "q" ["b", "a"]).1.hash :=
  (nc_C1_fingerprint_order_independence sampleHash "q").2 _
    (Reachable.add _ "b" "cb" [] (Reachable.add _ "a" "ca" [] Reachable.base))
    ["a", "b"] ["b", "a"] (List.Perm.swap "b" "a" [])

/-! ### Claim C4: resolution semantics -/

/-- The store produced by removing a never-registered key and then
registering a fragment under it: `removeProgramByKey`'s `key_to_hash[key]`
interns the unknown key at id 0 without advancing `next_key`, so the
subsequent registration stores its fragment under id 0 while the fresh-id
counter still reads 0. -/
def aliasedStore : ProgramStore :=
  (ProgramStore.emptyStore.removeProgramByKey "b").2.addProgram
    sampleHash "b" "content" []

/-- C4 counterexample: in `aliasedStore` the reference `"x"` matches neither
a key (the only stored fragment has key `"b"`) nor a category (the category
index is empty) and is not even interned, yet resolving `["x"]` returns the
`"b"` fragment: the unknown reference is interned at the un-advanced counter
value 0, which aliases the stored fragment's id. -/
theorem nc_C4_counterexample :
    aliasedStore.programs.map (fun e => e.2.key) = ["b"] ∧
    aliasedStore.programsByCategory = [] ∧
    alookup aliasedStore.keyToHash "x" = none ∧
    (aliasedStore.programByReferences ["x"]).1.map Program.key = ["b"] := by
  decide

/-- A clean store: every id that keys a stored fragment or a category
vector lies below the fresh-id counter, interning is injective (no two key
strings share an id), and every stored fragment sits under the id its key
string is interned at.  Executions that never hit the `removeProgramByKey`
`operator[]` slip only produce such states; the slip can break each clause
(a stale intern of an unknown key at id 0, with the counter left behind,
aliases an earlier or later registration). -/
structure CleanStore (s : ProgramStore) : Prop where
  progIdsLt : ∀ e ∈ s.programs, e.1 < s.nextKey
  catIdsLt : ∀ e ∈ s.programsByCategory, e.1 < s.nextKey
  internInj : (s.keyToHash.map Prod.snd).Nodup
  keyConsistent : ∀ e ∈ s.programs, alookup s.keyToHash e.2.key = some e.1

/-- In a clean store a fresh id matches no fragment and no category. -/
theorem matchOf_fresh {s : ProgramStore} {f : KeyHash} (hu : CleanStore s)
    (hf : s.nextKey ≤ f) : matchOf s f = [] := by
  have hp : alookup s.programs f = none := by
    cases hp0 : alookup s.programs f with
    | none => rfl
    | some p =>
        have h1 : f < s.nextKey := hu.progIdsLt _ (alookup_mem hp0)
        exact absurd h1 (Nat.not_lt.mpr hf)
  have hb : alookup s.programsByCategory f = none := by
    cases hb0 : alookup s.programsByCategory f with
    | none => rfl
    | some pids =>
        have h1 : f < s.nextKey := hu.catIdsLt _ (alookup_mem hb0)
        exact absurd h1 (Nat.not_lt.mpr hf)
  rw [matchOf]
  simp only [hp, hb]

theorem filterMap_nil_of_none {α β : Type} {f : α → Option β} {l : List α}
    (h : ∀ a ∈ l, f a = none) : l.filterMap f = [] := by
  induction l with
  | nil => rfl
  | cons a rest ih =>
      rw [List.filterMap_cons, h a (by simp)]
      exact ih (fun x hx => h x (by simp [hx]))

/-- A successful weak-reference lock returns the program with the requested
allocation identity. -/
theorem lockPid_pid {s : ProgramStore} {pid : Nat} {p : Program}
    (h : lockPid s pid = some p) : p.pid = pid := by
  rw [lockPid] at h
  have h2 := List.find?_some h
  simpa using h2

/-- C4 amended: on every reachable *clean* store, resolution behaves as
claimed.  Per reference the match set `matchOf` tries the exact key match
first ([p] when a fragment is stored under the id, categories not
consulted), else returns the locked members of the category vector, else
nothing; a reference that is not the key of any stored fragment and not
among any stored fragment's registered category tags has an empty match set
even when interned, so it contributes nothing and raises no error; the
resolved list contains exactly the fragments matched by some interned
reference; each fragment identity appears at most once; and the result is
sorted by content hash.  Without the clean-store hypothesis the final claim
is false (see the counterexample): the id-0 aliasing of
`removeProgramByKey` lets a reference matching neither a key nor a category
resolve to a stored fragment. -/
theorem nc_C4_resolution_amended (xxh3 : String → Hash) (s : ProgramStore)
    (hreach : Reachable xxh3 s) (hu : CleanStore s) (refs : List String) :
    (∀ h p, alookup s.programs h = some p → matchOf s h = [p]) ∧
    (∀ h pids, alookup s.programs h = none →
        alookup s.programsByCategory h = some pids →
        matchOf s h = pids.filterMap (lockPid s)) ∧
    (∀ h, alookup s.programs h = none →
        alookup s.programsByCategory h = none → matchOf s h = []) ∧
    (∀ r h, alookup s.keyToHash r = some h →
        (∀ e ∈ s.programs, e.2.key ≠ r) →
        (∀ e ∈ s.programs, h ∉ e.2.regCategories) → matchOf s h = []) ∧
    (∀ p, p ∈ (s.programByReferences refs).1 ↔
        ∃ r ∈ refs, ∃ h, alookup s.keyToHash r = some h ∧ p ∈ matchOf s h) ∧
    ((s.programByReferences refs).1.map Program.pid).Nodup ∧
    ((s.programByReferences refs).1).Pairwise (fun a b => a.hash ≤ b.hash) := by
  have hwf := storeWF_of_reachable hreach
  have hpi : PidInj s := pidInj_of_wf hwf
  have h1 := RInv_final s hpi refs
  refine ⟨?_, ?_, ?_, ?_, ?_, ?_, programByReferences_sorted s refs⟩
  · intro h p hp
    rw [matchOf]
    simp only [hp]
  · intro h pids hp hb
    rw [matchOf]
    simp only [hp, hb]
  · intro h hp hb
    rw [matchOf]
    simp only [hp, hb]
  · intro r h0 hl hkey hcat
    cases hp : alookup s.programs h0 with
    | some p =>
        exfalso
        have hep : (h0, p) ∈ s.programs := alookup_mem hp
        have hkc : alookup s.keyToHash p.key = some h0 := hu.keyConsistent _ hep
        have heq : (r, h0) = (p.key, h0) :=
          List.inj_on_of_nodup_map hu.internInj (alookup_mem hl) (alookup_mem hkc) rfl
        have hrp : r = p.key := congrArg Prod.fst heq
        exact hkey _ hep hrp.symm
    | none =>
        cases hb : alookup s.programsByCategory h0 with
        | some pids =>
            rw [matchOf]
            simp only [hp, hb]
            refine filterMap_nil_of_none ?_
            intro pid hpid
            cases hlp : lockPid s pid with
            | none => rfl
            | some p =>
                exfalso
                rcases lockPid_mem hlp with ⟨kh, hep⟩
                have hpidp : p.pid = pid := lockPid_pid hlp
                have hmc : memCat s.programsByCategory h0 p.pid :=
                  ⟨pids, hb, by rw [hpidp]; exact hpid⟩
                have hreg : h0 ∈ p.regCategories :=
                  (hwf.catInv (kh, p) hep h0).mp hmc
                exact hcat _ hep hreg
        | none =>
            rw [matchOf]
            simp only [hp, hb]
  · intro p
    rw [programByReferences_fst, mem_sortByHash, h1.accMem p]
    constructor
    · rintro (hk | ⟨f, hf1, hf2, hm⟩)
      · exact hk
      · rw [matchOf_fresh hu hf1] at hm
        cases hm
    · exact Or.inl
  · rw [programByReferences_fst]
    have hseen : ((refs.foldl refStep ⟨s, [], []⟩).acc.map Program.pid).Nodup :=
      h1.seenEq ▸ h1.seenNodup
    exact (((sortByHash_perm _).map Program.pid).nodup_iff).mpr hseen

/-- The reachable clean two-fragment store used to witness C4: two fragments
sharing the category `"cat"`. -/
def c4WitnessStore : ProgramStore :=
  (ProgramStore.emptyStore.addProgram sampleHash "k1" "c1" ["cat"]).addProgram
    sampleHash "k2" "c2" ["cat"]

/-- The same store after a query interned the reference `"zzz"` (at id 3),
which is neither a stored key nor a category tag. -/
def c4WitnessStore2 : ProgramStore :=
  (c4WitnessStore.prepareQuery "q" ["zzz"]).2

/-- C4 witness: the amended theorem applied to the concrete two-fragment
store with the stray interned reference `"zzz"`: the interned-but-unknown
reference matches nothing, and resolving `["k1", "cat", "zzz"]` yields an
identity-deduplicated hash-sorted list. -/
theorem nc_C4_witness :
    matchOf c4WitnessStore2 3 = [] ∧
    ((c4WitnessStore2.programByReferences ["k1", "cat", "zzz"]).1.map
        Program.pid).Nodup ∧
    ((c4WitnessStore2.programByReferences ["k1", "cat", "zzz"]).1).Pairwise
      (fun a b => a.hash ≤ b.hash) :=
  let h := nc_C4_resolution_amended sampleHash c4WitnessStore2
    (Reachable.prep _ "q" ["zzz"]
      (Reachable.add _ "k2" "c2" ["cat"]
        (Reachable.add _ "k1" "c1" ["cat"] Reachable.base)))
    ⟨by decide, by decide, by decide, by decide⟩ ["k1", "cat", "zzz"]
  ⟨h.2.2.2.1 "zzz" 3 (by decide) (by decide) (by decide),
    h.2.2.2.2.2.1, h.2.2.2.2.2.2⟩

end NodeClingo
